import Mathlib

/-!
Verification of the asn2eth ASN.1-to-dissector compiler (tools/asn2eth.py)
against its natural-language specification.

The Python source is shallowly embedded: each relevant method or loop body
becomes an executable Lean definition over explicit state.  Python dicts
become association lists (`List (String × _)`) with first-occurrence lookup
and in-place update; Python exceptions become `Except String _`; diagnostic
prints and `warnings.warn_explicit` calls are collected in output lists.
Python 2 peculiarities that the code relies on (cross-type comparison,
`str.isdigit`, truthiness) are embedded by small helper functions whose
doc comments cite the CPython 2 behaviour they reproduce.
-/

namespace Asn2Eth

/-! ## Association-list primitives (embedding of Python dict operations) -/

/-- `d.get(k)` / `d[k]` read access on a Python dict modelled as an
association list keyed by strings; first binding wins. -/
def alookup {α : Type} : List (String × α) → String → Option α
  | [], _ => none
  | (k, v) :: t, key => if k = key then some v else alookup t key

/-- `d[k] = v` on a Python dict: replace the first binding of `k`, or append
a new binding at the end (Python dicts in the source are used with
insertion-order-irrelevant reads, order only matters through the separate
`*_ord` lists the source keeps). -/
def aupdate {α : Type} : List (String × α) → String → α → List (String × α)
  | [], key, v => [(key, v)]
  | (k, w) :: t, key, v => if k = key then (key, v) :: t else (k, w) :: aupdate t key v

/-- `d.has_key(k)`. -/
def ahas {α : Type} (l : List (String × α)) (k : String) : Bool :=
  (alookup l k).isSome

/-! ## EthCnf: conformance tables (`EthCnf.__init__`, `EthCnf.add_item`)

A conformance table row as stored by `EthCnf.add_item`:
`{'fn' : fn, 'lineno' : lineno, 'used' : False}` updated with the
directive-specific keyword payload (`flag=...`, `proto=...`, ...).
The payload is kept as an opaque key/value list: no claim depends on its
internal shape. -/

structure CnfRow where
  fn : String
  lineno : Nat
  used : Bool
  payload : List (String × String)
  deriving Repr, DecidableEq

/-- Default value stored in `tblcfg[...]['val_dflt']` (Python heterogeneous
constants `0`, `None`, `False`, `()`, `{}`). -/
inductive PyDflt where
  | num (n : Int)
  | none
  | bool (b : Bool)
  | emptyTuple
  | emptyDict
  deriving Repr, DecidableEq

/-- One `tblcfg` row of `EthCnf.__init__`. -/
structure TblCfg where
  val_nm : String
  val_dflt : PyDflt
  chk_dup : Bool
  chk_use : Bool
  deriving Repr, DecidableEq

/-- The `tblcfg` table built in `EthCnf.__init__`, verbatim. -/
def tblcfg : List (String × TblCfg) :=
  [ ("EXPORTS",         ⟨"flag",     .num 0,      true, true⟩),
    ("PDU",             ⟨"attr",     .none,       true, true⟩),
    ("USER_DEFINED",    ⟨"flag",     .num 0,      true, true⟩),
    ("NO_EMIT",         ⟨"flag",     .num 0,      true, true⟩),
    ("MODULE_IMPORT",   ⟨"proto",    .none,       true, true⟩),
    ("OMIT_ASSIGNMENT", ⟨"omit",     .bool false, true, true⟩),
    ("TYPE_RENAME",     ⟨"eth_name", .none,       true, true⟩),
    ("FIELD_RENAME",    ⟨"eth_name", .none,       true, true⟩),
    ("IMPORT_TAG",      ⟨"ttag",     .emptyTuple, true, false⟩),
    ("FN_PARS",         ⟨"pars",     .emptyDict,  true, true⟩),
    ("TYPE_ATTR",       ⟨"attr",     .emptyDict,  true, false⟩),
    ("ETYPE_ATTR",      ⟨"attr",     .emptyDict,  true, false⟩),
    ("FIELD_ATTR",      ⟨"attr",     .emptyDict,  true, true⟩),
    ("EFIELD_ATTR",     ⟨"attr",     .emptyDict,  true, true⟩) ]

/-- A recorded `warnings.warn_explicit(message, UserWarning, filename, lineno)`
call. -/
structure Warn where
  message : String
  filename : String
  lineno : Nat
  deriving Repr, DecidableEq

/-- The duplicate-row message of `EthCnf.add_item`:
`"Duplicated %s for %s. Previous one is at %s:%d"`. -/
def dupMsg (table key pfn : String) (plineno : Nat) : String :=
  "Duplicated " ++ table ++ " for " ++ key ++ ". Previous one is at "
    ++ pfn ++ ":" ++ toString plineno

/-- Result of one `EthCnf.add_item` call: the updated table and the
warnings emitted during the call. -/
structure AddItemResult where
  table : List (String × CnfRow)
  warns : List Warn
  deriving Repr, DecidableEq

/-- `EthCnf.add_item(self, table, key, fn, lineno, **kw)`.  The function
raises nothing; it is wrapped in `Except` so that "the compilation
continues" is expressible as returning `.ok`. -/
def add_item (chk_dup : Bool) (tname : String) (tbl : List (String × CnfRow))
    (key fn : String) (lineno : Nat) (payload : List (String × String)) :
    Except String AddItemResult :=
  if chk_dup && ahas tbl key then
    match alookup tbl key with
    | some prior =>
        .ok ⟨tbl, [⟨dupMsg tname key prior.fn prior.lineno, fn, lineno⟩]⟩
    | none => .ok ⟨tbl, []⟩   -- unreachable: `ahas` guarantees presence
  else
    .ok ⟨aupdate tbl key ⟨fn, lineno, false, payload⟩, []⟩

/-! ## Parser action `p_SetType_1` (`SetType : SET LBRACE RBRACE`)

In the SLR parser, `t[3]` of this production is the value of the `RBRACE`
token — the lexeme string `"}"` (static token `t_RBRACE`).  The action
immediately evaluates `t[3].has_key('ext_list')`; a Python 2 `str` has no
`has_key` attribute, so the call raises `AttributeError` before the action
can test for an empty element list or build a `SetType`. -/

/-- A Python value at a parser-stack slot: either a plain token lexeme
(a `str`) or a dict such as the `{'elt_list': ..., 'ext_list': ...}`
records produced by `ComponentTypeLists` actions. -/
inductive PyTokVal where
  | str (s : String)
  | dict (d : List (String × String))
  deriving Repr, DecidableEq

/-- `v.has_key(k)`: succeeds on a dict, raises `AttributeError` on a `str`. -/
def pyHasKey : PyTokVal → String → Except String Bool
  | .str _, _ => .error "AttributeError: 'str' object has no attribute 'has_key'"
  | .dict d, k => .ok (ahas d k)

/-- The AST node `SetType(elt_list = ...)` as far as this production can
build it. -/
structure SetTypeNode where
  elt_list : List String
  deriving Repr, DecidableEq

/-- `p_SetType_1`: `if t[3].has_key('ext_list'): t[0] = SetType(elt_list = [])`.
Returns the value left in `t[0]` (`none` when the guard is false —
Python would leave `t[0]` as `None`). -/
def p_SetType_1 (t3 : PyTokVal) : Except String (Option SetTypeNode) := do
  let b ← pyHasKey t3 "ext_list"
  if b then return some ⟨[]⟩ else return none

/-- The `RBRACE` token value handed to `p_SetType_1`: the lexeme of the
static token `t_RBRACE = r'\}'`. -/
def rbraceTokVal : PyTokVal := .str "\x7d"

/-! ## EthCtx emission helpers (`pvp`, `eth_fn_call`, `eth_type_fn_hdr`,
`eth_type_fn_ftr`, `eth_type_fn_body`) -/

/-- The compilation-context switches consulted by the emitters:
protocol name, `-b` encoding selection and `-X`/new API selection. -/
structure Ectx where
  proto : String
  encoding : String        -- "ber" or "per"
  new : Bool
  deriving Repr, DecidableEq

def Ectx.pvp (e : Ectx) : String := if e.new then "_new" else ""
def Ectx.Org (e : Ectx) : Bool := !e.new
def Ectx.New (e : Ectx) : Bool := e.new
def Ectx.Per (e : Ectx) : Bool := e.encoding == "per"
def Ectx.Ber (e : Ectx) : Bool := e.encoding == "ber"
def Ectx.OPer (e : Ectx) : Bool := e.Org && e.Per
def Ectx.NPer (e : Ectx) : Bool := e.New && e.Per
def Ectx.OBer (e : Ectx) : Bool := e.Org && e.Ber

/-- `n * ' '` -/
def spaces (n : Nat) : String := String.mk (List.replicate n ' ')

/-- `', '.join(par[i])` -/
def joinPars (g : List String) : String := String.intercalate ", " g

/-- Parameter groups 1.. of `eth_fn_call`: each prefixed by `ind` spaces,
separated by `',\n'`. -/
def fnCallRest (ind : Nat) : List (List String) → String
  | [] => ""
  | [g] => spaces ind ++ joinPars g
  | g :: rest => spaces ind ++ joinPars g ++ ",\n" ++ fnCallRest ind rest

/-- `EthCtx.eth_fn_call(fname, ret, indent, par)`. -/
def eth_fn_call (fname : String) (ret : Option String) (indent : Nat)
    (par : List (List String)) : String :=
  let out := spaces indent
  let out := out ++ (match ret with
    | none => ""
    | some r => if r = "return" then "return " else r ++ " = ")
  let out := out ++ fname ++ "("
  let ind := out.length
  let out := out ++ (match par with
    | [] => ""
    | [g] => joinPars g
    | g :: rest => joinPars g ++ ",\n" ++ fnCallRest ind rest)
  out ++ ");\n"

/-- `EthCtx.eth_type_fn_hdr(tname)`.  The conformance `FN_HDR` splice is
passed in as `fnPresence`/`fnHdrText` (the result of
`conform.get_fn_presence(ref0)` / `conform.get_fn_text(ref0, 'FN_HDR')`). -/
def eth_type_fn_hdr (e : Ectx) (tname : String) (exportFlag : Nat)
    (fnPresence : Bool) (fnHdrText : String) : String :=
  let out := "\n"
  let out := out ++ (if exportFlag &&& 0x01 = 0 then "static " else "")
  let out := out ++ "int\n"
  let out := out ++
    (if e.OBer then
      "dissect_" ++ e.proto ++ "_" ++ tname ++
        "(gboolean implicit_tag _U_, tvbuff_t *tvb, int offset, packet_info *pinfo _U_, proto_tree *tree, int hf_index) \x7b\n"
     else if e.NPer then
      "dissect_" ++ e.proto ++ "_" ++ tname ++
        "(tvbuff_t *tvb, int offset, packet_info *pinfo _U_, proto_tree *tree, int hf_index, proto_item **item, void *private_data) \x7b\n"
     else if e.OPer then
      "dissect_" ++ e.proto ++ "_" ++ tname ++
        "(tvbuff_t *tvb, int offset, packet_info *pinfo _U_, proto_tree *tree, int hf_index) \x7b\n"
     else "")
  out ++ (if fnPresence then fnHdrText else "")

/-- `EthCtx.eth_type_fn_ftr(tname)`. -/
def eth_type_fn_ftr (fnPresence : Bool) (fnFtrText : String) : String :=
  "\n" ++ (if fnPresence then fnFtrText else "") ++ "  return offset;\n" ++ "\x7d\n"

/-- `EthCtx.eth_type_fn_body(tname, body)` with `pars = None`. -/
def eth_type_fn_body (bodyPresence : Bool) (fnBodyText : String) (body : String) : String :=
  if bodyPresence then fnBodyText else body

/-- `EthCtx.eth_type_fn_h(tname)`: the header-only (prototype) declaration
used for cyclic dependencies and export headers. -/
def eth_type_fn_h (e : Ectx) (tname : String) (exportFlag : Nat) : String :=
  let out := if exportFlag &&& 0x01 = 0 then "static " else ""
  let out := out ++ "int "
  let out := out ++
    (if e.OBer then
      "dissect_" ++ e.proto ++ "_" ++ tname ++
        "(gboolean implicit_tag, tvbuff_t *tvb, int offset, packet_info *pinfo, proto_tree *tree, int hf_index)"
     else if e.NPer then
      "dissect_" ++ e.proto ++ "_" ++ tname ++
        "(tvbuff_t *tvb, int offset, packet_info *pinfo, proto_tree *tree, int hf_index, proto_item **item, void *private_data)"
     else if e.OPer then
      "dissect_" ++ e.proto ++ "_" ++ tname ++
        "(tvbuff_t *tvb, int offset, packet_info *pinfo, proto_tree *tree, int hf_index)"
     else "")
  out ++ ";\n"

/-- `EthCtx.eth_vals(tname, vals)` row `'  { %3s, "%s" },\n'`: `%3s`
right-justifies `str(val)` in width 3. -/
def pad3 (s : String) : String :=
  if s.length < 3 then spaces (3 - s.length) ++ s else s

/-- `str(val)` for a Python int. -/
def pyIntStr (v : Int) : String := toString v

/-- `EthCtx.eth_vals(tname, vals)`. -/
def eth_vals (exportFlag : Nat) (tname : String) (vals : List (Int × String)) : String :=
  let out := if exportFlag &&& 0x02 = 0 then "static " else ""
  let out := out ++ "const value_string " ++ tname ++ "_vals[] = \x7b\n"
  let out := out ++ String.join (vals.map fun p =>
    "  \x7b " ++ pad3 (pyIntStr p.1) ++ ", \"" ++ p.2 ++ "\" \x7d,\n")
  out ++ "  \x7b 0, NULL \x7d\n\x7d;\n"

/-! ## EnumeratedType (`eth_type_vals`, `eth_type_fn`)

An `EnumerationItem` is either a bare `Identifier` node or a `NamedNumber`
node with an explicit value (`int(e.val)` of the parsed `SignedNumber`
string). -/

inductive EnumItem where
  | ident (nm : String)
  | named (nm : String) (v : Int)
  deriving Repr, DecidableEq

/-- The `while used.has_key(lastv): lastv += 1` scan of `eth_type_vals`,
written with an explicit step budget so that it reduces definitionally;
the budget `used.card + 1` of `nextFree` always suffices (the scan visits
at most `card` used values before landing on a free one). -/
def nextFreeAux : Nat → Finset ℤ → ℤ → ℤ
  | 0, _, v => v
  | n + 1, used, v => if v ∈ used then nextFreeAux n used (v + 1) else v

def nextFree (used : Finset ℤ) (v : ℤ) : ℤ := nextFreeAux (used.card + 1) used v

/-- The per-loop state of `EnumeratedType.eth_type_vals`:
`vals`, `lastv`, `used`, `maxv`. -/
structure EnumValsState where
  vals : List (Int × String)
  lastv : Int
  used : Finset ℤ
  maxv : Int

/-- The pre-pass `for e in ...: if e.type == 'NamedNumber': used[int(e.val)] = True`. -/
def markNamed : List EnumItem → Finset ℤ → Finset ℤ
  | [], used => used
  | .ident _ :: rest, used => markNamed rest used
  | .named _ x :: rest, used => markNamed rest (insert x used)

/-- The root-enumeration loop of `eth_type_vals` (auto-assigned values are
recorded in `used`). -/
def enumLoopRoot : List EnumItem → EnumValsState → EnumValsState
  | [], st => st
  | .named nm x :: rest, st =>
      enumLoopRoot rest { st with vals := st.vals ++ [(x, nm)],
                                  maxv := if x > st.maxv then x else st.maxv }
  | .ident nm :: rest, st =>
      let v := nextFree st.used st.lastv
      enumLoopRoot rest { vals := st.vals ++ [(v, nm)], lastv := v,
                          used := insert v st.used,
                          maxv := if v > st.maxv then v else st.maxv }

/-- The extension-list loop of `eth_type_vals`.  Unlike the root loop it
does not record auto-assigned values in `used` (source has no
`used[val] = True` there). -/
def enumLoopExt : List EnumItem → EnumValsState → EnumValsState
  | [], st => st
  | .named nm x :: rest, st =>
      enumLoopExt rest { st with vals := st.vals ++ [(x, nm)],
                                 maxv := if x > st.maxv then x else st.maxv }
  | .ident nm :: rest, st =>
      let v := nextFree st.used st.lastv
      enumLoopExt rest { st with vals := st.vals ++ [(v, nm)], lastv := v,
                                 maxv := if v > st.maxv then v else st.maxv }

/-- `EnumeratedType.eth_type_vals(proto, tname, ectx)`: returns the
`(val, ident)` table and the computed local `maxv`. -/
def enumTypeVals (root : List EnumItem) (ext : Option (List EnumItem)) :
    List (Int × String) × Int :=
  let st0 : EnumValsState := ⟨[], 0, markNamed root ∅, 0⟩
  let st1 := enumLoopRoot root st0
  match ext with
  | none => (st1.vals, st1.maxv)
  | some es =>
      let st2 := enumLoopExt es { st1 with used := markNamed es st1.used }
      (st2.vals, st2.maxv)

/-- The full string output of `EnumeratedType.eth_type_vals`:
`'\n' + ectx.eth_vals(tname, vals)`. -/
def enumTypeValsOut (exportFlag : Nat) (tname : String) (root : List EnumItem)
    (ext : Option (List EnumItem)) : String :=
  "\n" ++ eth_vals exportFlag tname (enumTypeVals root ext).1

/-- `EnumeratedType.eth_type_fn(proto, tname, ectx)`.  On the PER path the
body interpolation reads `maxv`, which is a local variable of
`eth_type_vals` and is neither a local of this method nor a module-level
global, so CPython raises `NameError` there; that unbound read is embedded
as the `.error` branch. -/
def enumTypeFn (e : Ectx) (tname : String) (exportFlag : Nat)
    (fnPresence bodyPresence : Bool) (fnHdrText fnFtrText fnBodyText : String)
    (ext : Option (List EnumItem)) : Except String String :=
  let out := "\n"
  let _extS : String := if ext.isNone then "FALSE" else "TRUE"
  let out := out ++ eth_type_fn_hdr e tname exportFlag fnPresence fnHdrText
  if e.Ber then
    let body := eth_fn_call ("dissect_ber_integer" ++ e.pvp) (some "offset") 2
      [["pinfo", "tree", "tvb", "offset", "hf_index", "NULL"]]
    .ok (out ++ eth_type_fn_body bodyPresence fnBodyText body
            ++ eth_type_fn_ftr fnPresence fnFtrText)
  else
    .error "NameError: global name 'maxv' is not defined"

/-! ## eth_prepare: type-name synthesis loop (`for t in self.type_ord`)

Inputs are the per-key data the loop reads from `self.type[t]` and the
conformance tables: the registered `tname`, `conform.get_fn_presence(t)`,
`conform.check_item('TYPE_RENAME', t)`, the export/user_defined/no_emit
flags, and a tag (`valTag`) identifying the underlying AST node
`self.type[t]['val']`.  The attribute-bag updates of lines 536–538
(`ETYPE_ATTR`, `STRINGS == '$$'`) touch only the attribute bag, which no
claim depends on, and are not modelled; neither is the named-bits/subtree
pass that follows the loop. -/

/-- Python `s.split(c)` for a one-character separator, structurally
recursive over the character list (kernel-computable, unlike core
`String.splitOn`). -/
def splitCharAux (c : Char) : List Char → List Char → List (List Char)
  | [], acc => [acc.reverse]
  | x :: xs, acc =>
      if x = c then acc.reverse :: splitCharAux c xs []
      else splitCharAux c xs (x :: acc)

def splitChar (c : Char) (s : String) : List String :=
  (splitCharAux c s.data []).map String.mk

/-- `s.replace('-', '_')`: single-character replacement, done character-wise
(kernel-computable, unlike core `String.replace`). -/
def replaceDash (s : String) : String :=
  String.mk (s.data.map fun c => if c = '-' then '_' else c)

/-- `s.find(c) >= 0` for a single character (substring containment). -/
def strContainsChar (s : String) (c : Char) : Bool := s.data.contains c

structure TypeRegIn where
  key : String
  tname : String
  fnPresence : Bool
  typeRename : Bool
  valTag : String
  exportFlag : Nat
  userDef : Nat
  noEmit : Nat
  deriving Repr, DecidableEq

/-- An `self.eth_type[nm]` entry: either created by the import loop
(lines 505–509: keys `import`, `proto`, `attr`, `ref` only) or by the main
loop (line 531: full flag set). -/
inductive EthTypeEntry where
  | imported (mod proto : String) (ref : List String)
  | defined (proto : String) (exportFlag userDef noEmit : Nat) (valTag : String)
      (ref : List String)
  deriving Repr, DecidableEq

def EthTypeEntry.ref : EthTypeEntry → List String
  | .imported _ _ r => r
  | .defined _ _ _ _ _ r => r

def EthTypeEntry.proto : EthTypeEntry → String
  | .imported _ p _ => p
  | .defined p _ _ _ _ _ => p

def EthTypeEntry.isImport : EthTypeEntry → Bool
  | .imported _ _ _ => true
  | .defined _ _ _ _ _ _ => false

structure TypeLoopState where
  ethType : List (String × EthTypeEntry)
  ethTypeOrd : List String
  ethExportOrd : List String
  ethTypeDupl : List (String × List String)
  typeEthname : List (String × String)   -- self.type[t]['ethname'] assignments
  deriving Repr, DecidableEq

/-- The import pre-loop (lines 505–509): `for t in self.type_imp`. -/
def typeLoopInit (imports : List (String × String × String)) : TypeLoopState :=
  { ethType := imports.map (fun i => (i.1, .imported i.2.1 i.2.2 [])),
    ethTypeOrd := [], ethExportOrd := [], ethTypeDupl := [],
    typeEthname := imports.map (fun i => (i.1, i.1)) }

/-- The name-synthesis stage of one main-loop iteration (lines 511–526):
choose the wire name `nm` and the updated duplicate table. -/
def typeNameChoice (st : TypeLoopState) (t : TypeRegIn) :
    Except String (String × List (String × List String)) := do
  let parts := splitChar '/' t.key
  let nm0 := t.tname
  -- `if ((nm.find('#') >= 0) or ((len(t.split('/'))>1) and fn_presence and not TYPE_RENAME))`
  let synth := strContainsChar nm0 '#'
      || (decide (parts.length > 1) && t.fnPresence && !t.typeRename)
  (do
    if synth then
      let nm1 :=
        if parts.length = 2 && parts.getLastD "" = "_item" then
          parts.getD 0 "" ++ parts.getD 1 ""
        else if parts.getLastD "" = "_item" then
          "T_" ++ parts.getD (parts.length - 2) "" ++ parts.getLastD ""
        else
          "T_" ++ parts.getLastD ""
      let nm2 := replaceDash nm1
      if ahas st.ethType nm2 then
        match alookup st.ethTypeDupl nm2 with
        | some lst =>
            let lst' := lst ++ [t.key]
            pure (nm2 ++ toString (lst'.length - 1), aupdate st.ethTypeDupl nm2 lst')
        | none =>
            -- `self.eth_type_dupl[nm] = [self.eth_type[nm]['ref'][0], t]`
            match alookup st.ethType nm2 with
            | some e =>
                match e.ref with
                | [] => throw "IndexError: list index out of range"  -- ['ref'][0] on an import entry
                | r0 :: _ =>
                    let lst' := [r0, t.key]
                    pure (nm2 ++ toString (lst'.length - 1), aupdate st.ethTypeDupl nm2 lst')
            | none => throw "KeyError"  -- unreachable: `ahas` guarantees presence
      else
        pure (nm2, st.ethTypeDupl)
    else
      pure (nm0, st.ethTypeDupl))

/-- The rest of one main-loop iteration after the name is chosen
(lines 527–544): share or create the entry, record the key's ethname,
then merge the flags. -/
def typeStepTail (proto : String) (st : TypeLoopState) (t : TypeRegIn) (nm : String) :
    Except String TypeLoopState := do
  -- lines 527–539: share or create, then record the key's ethname
  let st ←
    if ahas st.ethType nm then do
      match alookup st.ethType nm with
      | some e =>
          let e' : EthTypeEntry :=
            match e with
            | .imported m p r => .imported m p (r ++ [t.key])
            | .defined p x u n v r => .defined p x u n v (r ++ [t.key])
          pure { st with ethType := aupdate st.ethType nm e' }
      | none => throw "KeyError"  -- unreachable
    else
      pure { st with
        ethTypeOrd := st.ethTypeOrd ++ [nm],
        ethType := aupdate st.ethType nm
          (.defined proto 0 0x03 0x03 t.valTag [t.key]) }
  let st := { st with typeEthname := aupdate st.typeEthname t.key nm }
  -- lines 540–544: flag merge (KeyError on entries lacking the flags, i.e.
  -- entries created by the import loop)
  match alookup st.ethType nm with
  | some (EthTypeEntry.defined p x u n v r) =>
      let st := if x = 0 ∧ t.exportFlag ≠ 0 then
          { st with ethExportOrd := st.ethExportOrd ++ [nm] }
        else st
      pure { st with ethType := (aupdate st.ethType nm
        (.defined p (x ||| t.exportFlag) (u &&& t.userDef) (n &&& t.noEmit) v r)) }
  | some (EthTypeEntry.imported _ _ _) => throw "KeyError: 'export'"
  | none => throw "KeyError"  -- unreachable

/-- One iteration of the main loop (lines 510–544). -/
def typeStep (proto : String) (st : TypeLoopState) (t : TypeRegIn) :
    Except String TypeLoopState := do
  let (nm, dupl) ← typeNameChoice st t
  typeStepTail proto { st with ethTypeDupl := dupl } t nm

/-- The whole loop over `self.type_ord`. -/
def typeLoop (proto : String) (ts : List TypeRegIn) (st : TypeLoopState) :
    Except String TypeLoopState :=
  ts.foldlM (typeStep proto) st

/-! ## eth_prepare: header-field loop (`for f in self.field_ord`, lines 613–667)

The state also carries, purely as an observer for the theorems below, the
list `fieldResolved` of `(field key, synthesised base name, assigned wire
name, ethtype+modified combo)` quadruples — the per-field data the loop
stores into `self.field[f]['ethname']` plus the locals `nm` (pre-collision)
and `ethtypemod` it computed on the way.  The attribute-bag assembly of
lines 659–663 (`eth_get_type_attr`, `NAME`, `ABBREV`, `EFIELD_ATTR`)
touches only the attribute bag, which no claim depends on, and is not
modelled; `name`/`abbrev` are computed below exactly as in lines 616–621
but then dropped for the same reason. -/

structure Attr4 where
  TYPE : String
  DISPLAY : String
  STRINGS : String
  BITMASK : String
  deriving Repr, DecidableEq

/-- A `self.type[k]` entry as read by the field loop (import marker,
protocol, resolved ethname, attribute defaults). -/
structure TypeEntry where
  imp : Option String
  proto : String
  ethname : String
  attr : Attr4
  deriving Repr, DecidableEq

structure FieldIn where
  key : String
  typ : String
  idx : String
  impl : Bool
  modified : String
  deriving Repr, DecidableEq

structure HfEntry where
  fullname : String
  ethtype : String
  modified : String
  ref : List String
  deriving Repr, DecidableEq

structure HfState where
  typeTbl : List (String × TypeEntry)
  ethType : List (String × EthTypeEntry)
  ethHf : List (String × HfEntry)
  ethHfOrd : List String
  ethHfDupl : List (String × List (String × String))
  fieldResolved : List (String × String × String × String)
  warns : List String
  deriving Repr, DecidableEq

/-- The base-name synthesis of lines 614–623 (before collision handling):
`nm` from the last path component (`_item` merging), `FIELD_RENAME`
override, hyphen→underscore. -/
def hfBaseName (rename : List (String × String)) (f : FieldIn) : String :=
  let parts := splitChar '/' f.key
  let nmA :=
    if decide (parts.length > 1) && (parts.getLastD "" == "_item") then
      parts.getD (parts.length - 2) "" ++ parts.getLastD ""
    else parts.getLastD ""
  let nmB := match alookup rename f.key with
    | some v => v
    | none => nmA
  replaceDash nmB

/-- The dummy-import `TypeEntry` synthesised at lines 630–633. -/
def dummyTypeEntry (t : String) : TypeEntry :=
  ⟨some "xxx", "xxx", t, ⟨"FT_NONE", "BASE_NONE", "NULL", "0"⟩⟩

/-- Lines 624–635: resolve the field's type key to its ethname, creating a
dummy import (with a diagnostic print) when the key is missing. -/
def hfResolveType (st : HfState) (f : FieldIn) : String × HfState :=
  match alookup st.typeTbl f.typ with
  | some te => (te.ethname, st)
  | none =>
      (f.typ,
       { st with
         warns := st.warns ++ ["Dummy imported:  " ++ f.typ],
         typeTbl := aupdate st.typeTbl f.typ (dummyTypeEntry f.typ),
         ethType := aupdate st.ethType f.typ (.imported "xxx" "xxx" []) })

/-- The collision handling of lines 637–656, as a decision value:
`.inr nmS` means the share path (`continue`) is taken with the existing
name `nmS`; `.inl (some (nmF, dupl'))` means a new entry named `nmF` is
created with the duplicate-resolution table updated to `dupl'`. -/
def hfDecision (st : HfState) (nm ethtype ethtypemod : String) :
    Option (String × List (String × List (String × String))) ⊕ String :=
  if ahas st.ethHf nm then
    match alookup st.ethHfDupl nm with
    | some dmap =>
        match alookup dmap ethtypemod with
        | some nmS => .inr nmS
        | none =>
            let nmx := nm ++ toString dmap.length
            -- line 646: the new duplicate is recorded under `ethtype`,
            -- not `ethtypemod`
            .inl (some (nmx, aupdate st.ethHfDupl nm (aupdate dmap ethtype nmx)))
    | none =>
        match alookup st.ethHf nm with
        | some cur =>
            if cur.ethtype ++ cur.modified = ethtypemod then .inr nm
            else
              .inl (some (nm ++ "1",
                aupdate st.ethHfDupl nm
                  (aupdate (aupdate [] (cur.ethtype ++ cur.modified) nm)
                    ethtypemod (nm ++ "1"))))
        | none => .inl none  -- unreachable: `ahas` guarantees presence
  else .inl (some (nm, st.ethHfDupl))

/-- Lines 636–667: collision handling and entry creation/sharing for one
field, given the resolved `ethtype`. -/
def hfAssignName (rename : List (String × String)) (proto : String)
    (st : HfState) (f : FieldIn) (ethtype : String) : HfState :=
  let nm := hfBaseName rename f
  let ethtypemod := ethtype ++ f.modified
  match hfDecision st nm ethtype ethtypemod with
  | .inr nmS =>
      -- share: `self.eth_hf[nm]['ref'].append(f); self.field[f]['ethname'] = nm`
      let ethHf' := match alookup st.ethHf nmS with
        | some cur => aupdate st.ethHf nmS { cur with ref := cur.ref ++ [f.key] }
        | none => st.ethHf
      { st with ethHf := ethHf',
                fieldResolved := st.fieldResolved ++ [(f.key, nm, nmS, ethtypemod)] }
  | .inl none => st
  | .inl (some (nmF, dupl')) =>
      -- lines 657–666: append to the order and (over)write the entry
      { st with
        ethHfDupl := dupl',
        ethHfOrd := st.ethHfOrd ++ [nmF],
        ethHf := aupdate st.ethHf nmF
          ⟨"hf_" ++ proto ++ "_" ++ nmF, ethtype, f.modified, [f.key]⟩,
        fieldResolved := st.fieldResolved ++ [(f.key, nm, nmF, ethtypemod)] }

/-- One iteration of the field loop. -/
def hfStep (rename : List (String × String)) (proto : String)
    (st : HfState) (f : FieldIn) : HfState :=
  let r := hfResolveType st f
  hfAssignName rename proto r.2 f r.1

def hfLoop (rename : List (String × String)) (proto : String)
    (fs : List FieldIn) (st : HfState) : HfState :=
  fs.foldl (hfStep rename proto) st

/-- `packet-*-hf.c` body (`eth_output_hf`, named bits elided): one
`static int hf_...` declaration per `eth_hf_ord` entry.  Returns the list
of emitted declaration lines (empty list ⇒ the file is not even created:
`eth_output_hf` returns early). -/
def ethOutputHfDecls (st : HfState) : List String :=
  st.ethHfOrd.filterMap fun f =>
    match alookup st.ethHf f with
    | some e => some ("static int " ++ e.fullname ++ " = -1;")
    | none => none

/-- `out_field(f)` of `eth_output_types` for the legacy-PER API: the
per-field wrapper function forwarding to the type's dissector. -/
def out_field_oper (st : HfState) (fe : String) : Except String String :=
  match alookup st.ethHf fe with
  | none => .error "KeyError"
  | some hf =>
    match alookup st.ethType hf.ethtype with
    | none => .error "KeyError"
    | some te =>
        .ok ("static int dissect_" ++ fe
          ++ "(tvbuff_t *tvb, int offset, packet_info *pinfo, proto_tree *tree) \x7b\n"
          ++ eth_fn_call ("dissect_" ++ te.proto ++ "_" ++ hf.ethtype)
              (some "return") 2 [["tvb", "offset", "pinfo", "tree", hf.fullname]]
          ++ "\x7d\n")

/-! ## IntegerType (`eth_tname`, `eth_ftype`, `eth_strings`, `eth_has_vals`,
`eth_type_fn`) -/

/-- The constraint node attached to an INTEGER, as far as `eth_ftype` and
`eth_type_fn` inspect it: `self.constr.type` discriminates `SingleValue` /
`ValueRange` / anything else; the subtype values are the parsed `Value`
strings (`NUMBER` lexemes, `'-' + NUMBER`, or `MIN`/`MAX`); `ext` models
`hasattr(self.constr, 'ext') and self.constr.ext` (the attribute is only
ever set to `True`, by `p_ElementSetSpecs_2`). -/
inductive IntConstrM where
  | singleValue (sub : String) (ext : Bool)
  | valueRange (lo hi : String) (ext : Bool)
  | other (ctype : String)
  deriving Repr, DecidableEq

/-- CPython 2 `s >= 0` for a `str` s: numbers compare smaller than any
non-numeric object (default cross-type ordering by type name,
`'int' < 'str'`), so the comparison is `True` for every string, including
`'-5'` or `'MIN'`. -/
def py2_str_ge_zero (_s : String) : Bool := true

/-- Python 2 `str.isdigit()`: non-empty and all characters decimal digits. -/
def pyIsdigit (s : String) : Bool := s.length != 0 && s.toList.all Char.isDigit

/-- `IntegerType.eth_ftype`. -/
def eth_ftype_integer (constr : Option IntConstrM) : String × String :=
  match constr with
  | some (.singleValue sub _) =>
      if py2_str_ge_zero sub then ("FT_UINT32", "BASE_DEC") else ("FT_INT32", "BASE_DEC")
  | some (.valueRange lo _ _) =>
      if py2_str_ge_zero lo then ("FT_UINT32", "BASE_DEC") else ("FT_INT32", "BASE_DEC")
  | some (.other _) => ("FT_INT32", "BASE_DEC")
  | none => ("FT_INT32", "BASE_DEC")

/-- `IntegerType.eth_strings`. -/
def eth_strings_integer (named_list : Bool) : String :=
  if named_list then "$$" else "NULL"

/-- `IntegerType.eth_has_vals`. -/
def eth_has_vals_integer (named_list : Bool) : Bool := named_list

/-- The `tname` stored by `eth_reg_type` (lines 455–458): for a top-level
(single-component) key, the identifier with hyphens replaced; otherwise the
AST node's `eth_tname()`. -/
def regTname (ident : String) (eth_tname : String) : String :=
  if (splitChar '/' ident).length > 1 then eth_tname else replaceDash ident

/-- `IntegerType.eth_type_fn`.  When the constraint is neither absent nor
`SingleValue`/`ValueRange`, no branch assigns `body` and the subsequent
read raises `UnboundLocalError`; that is the `.error` case. -/
def eth_type_fn_integer (e : Ectx) (tname : String) (exportFlag : Nat)
    (fnPresence bodyPresence : Bool) (fnHdrText fnFtrText fnBodyText : String)
    (constr : Option IntConstrM) : Except String String := do
  let out := "\n"
  let out := out ++ eth_type_fn_hdr e tname exportFlag fnPresence fnHdrText
  let body ←
    if e.Ber then
      pure (eth_fn_call ("dissect_ber_integer" ++ e.pvp) (some "offset") 2
        [["pinfo", "tree", "tvb", "offset", "hf_index", "NULL"]])
    else
      match constr with
      | none =>
          if e.New then
            pure (eth_fn_call ("dissect_per_integer" ++ e.pvp) (some "offset") 2
              [["tvb", "offset", "pinfo", "tree"],
               ["hf_index", "item", "private_data"], ["NULL"]])
          else
            pure (eth_fn_call ("dissect_per_integer" ++ e.pvp) (some "offset") 2
              [["tvb", "offset", "pinfo", "tree", "hf_index"], ["NULL", "NULL"]])
      | some (.singleValue sub hext) =>
          let minv := if pyIsdigit sub then sub ++ "U" else sub
          let maxv := if pyIsdigit sub then sub ++ "U" else sub
          let ext := if hext then "TRUE" else "FALSE"
          if e.New then
            pure (eth_fn_call ("dissect_per_constrained_integer" ++ e.pvp)
              (some "offset") 2
              [["tvb", "offset", "pinfo", "tree"],
               ["hf_index", "item", "private_data"],
               [minv, maxv, ext], ["NULL"]])
          else
            pure (eth_fn_call ("dissect_per_constrained_integer" ++ e.pvp)
              (some "offset") 2
              [["tvb", "offset", "pinfo", "tree", "hf_index"],
               [minv, maxv, "NULL", "NULL", ext]])
      | some (.valueRange lo hi hext) =>
          let minv := if pyIsdigit lo then lo ++ "U" else lo
          let maxv := if pyIsdigit hi then hi ++ "U" else hi
          let ext := if hext then "TRUE" else "FALSE"
          if e.New then
            pure (eth_fn_call ("dissect_per_constrained_integer" ++ e.pvp)
              (some "offset") 2
              [["tvb", "offset", "pinfo", "tree"],
               ["hf_index", "item", "private_data"],
               [minv, maxv, ext], ["NULL"]])
          else
            pure (eth_fn_call ("dissect_per_constrained_integer" ++ e.pvp)
              (some "offset") 2
              [["tvb", "offset", "pinfo", "tree", "hf_index"],
               [minv, maxv, "NULL", "NULL", ext]])
      | some (.other _) =>
          throw "UnboundLocalError: local variable 'body' referenced before assignment"
  let out := out ++ eth_type_fn_body bodyPresence fnBodyText body
  let out := out ++ eth_type_fn_ftr fnPresence fnFtrText
  pure out

/-! ## eth_output_types: the `packet-*-fn.c` item stream

The file content is modelled as a list of items: the cyclic-dependency
block (cycle comments + one header-only declaration per distinct cycle-head
ethname, plus legacy per-field wrappers), the legacy imported-type field
wrappers, then per `eth_type_ord1` entry the optional value-string table
and the dissector definition (or header-only declaration for
`user_def`, or nothing for `no_emit`), plus legacy field wrappers for
non-cycle-head types. -/

inductive OutItem where
  | cyc (cs : List (List String))
  | fwd (nm : String)
  | fieldFn (nm : String)
  | valsTbl (nm : String)
  | valsExtern (nm : String)
  | defn (nm : String)
  | fnHdrDecl (nm : String)
  deriving Repr, DecidableEq

/-- The `eth_type[nm]` data the output loop consults per ethname. -/
structure FnEmitInfo where
  isImport : Bool
  hasVals : Bool
  userDef : Nat
  noEmit : Nat
  deriving Repr, DecidableEq

/-- First occurrences of a list, in order (the effect of the
`dep_cycle_eth_type[t][0] != i: continue` dedup in the cyclic block). -/
def firstOccsGo : List String → List String → List String
  | [], _ => []
  | h :: t, seen => if seen.contains h then firstOccsGo t seen
                    else h :: firstOccsGo t (h :: seen)

def firstOccs (l : List String) : List String := firstOccsGo l []

/-- Legacy per-field wrapper items for all fields whose ethtype is `t`. -/
def fieldFnsFor (hfFields : List (String × String)) (t : String) : List OutItem :=
  (hfFields.filter (fun p => p.2 = t)).map (fun p => .fieldFn p.1)

/-- The deduplicated cycle-head ethnames (`self.eth_dep_cycle[i][0]`,
skipping later cycles sharing a head). -/
def cycHeads (cycles : List (List String)) (ethnameOf : String → String) : List String :=
  firstOccs (cycles.map fun c => ethnameOf (c.headD ""))

/-- The cyclic-dependencies block: per head a comment listing its cycles,
one forward declaration, and (old API) the head's legacy field wrappers. -/
def cycBlockItems (new : Bool) (cycles : List (List String))
    (ethnameOf : String → String) (hfFields : List (String × String)) : List OutItem :=
  (cycHeads cycles ethnameOf).flatMap (fun h =>
    .cyc (cycles.filter (fun c => ethnameOf (c.headD "") = h)) :: .fwd h ::
      (if !new then fieldFnsFor hfFields h else []))

/-- Old-API field wrappers for fields whose type is imported. -/
def impFldItems (new : Bool) (info : String → FnEmitInfo)
    (hfFields : List (String × String)) : List OutItem :=
  if !new then
    (hfFields.filter (fun p => (info p.2).isImport)).map (fun p => OutItem.fieldFn p.1)
  else []

/-- The per-`eth_type_ord1`-entry output: optional value table, then the
dissector definition (or header-only declaration under `user_def`, nothing
under `no_emit`), then (old API) legacy field wrappers of non-head types. -/
def mainItemsFor (new : Bool) (heads : List String) (info : String → FnEmitInfo)
    (hfFields : List (String × String)) (t : String) : List OutItem :=
  if (info t).isImport then []
  else
    (if (info t).hasVals then
      (if (info t).noEmit &&& 0x02 ≠ 0 then []
       else if (info t).userDef &&& 0x02 ≠ 0 then [OutItem.valsExtern t]
       else [OutItem.valsTbl t])
     else [])
    ++ (if (info t).noEmit &&& 0x01 ≠ 0 then []
        else if (info t).userDef &&& 0x01 ≠ 0 then [OutItem.fnHdrDecl t]
        else [OutItem.defn t])
    ++ (if !new && !heads.contains t then fieldFnsFor hfFields t else [])

/-- `EthCtx.eth_output_types`, as the stream of emitted items. -/
def ethOutputItems (new : Bool) (ord1 : List String) (cycles : List (List String))
    (ethnameOf : String → String) (info : String → FnEmitInfo)
    (hfFields : List (String × String)) : List OutItem :=
  cycBlockItems new cycles ethnameOf hfFields
    ++ impFldItems new info hfFields
    ++ ord1.flatMap (mainItemsFor new (cycHeads cycles ethnameOf) info hfFields)

/-! ## Collision-freedom predicates (the claim C3 reads on the registries) -/

/-- The claim's collision-freedom for the header-field map: any two
registered fields resolving to the same wire name either are the same field
or have the same underlying (ethtype + modified) combo. -/
def hfCollisionFree (st : HfState) : Prop :=
  ∀ p ∈ st.fieldResolved, ∀ q ∈ st.fieldResolved,
    p.2.2.1 = q.2.2.1 → p.1 ≠ q.1 → p.2.2.2 = q.2.2.2

instance (st : HfState) : Decidable (hfCollisionFree st) := by
  unfold hfCollisionFree
  infer_instance

/-- The claim's collision-freedom for the type map: two distinct registered
type keys with distinct underlying AST nodes never share a wire name. -/
def typeCollisionFree (ins : List TypeRegIn) (st : TypeLoopState) : Prop :=
  ∀ t1 ∈ ins, ∀ t2 ∈ ins,
    t1.key ≠ t2.key → t1.valTag ≠ t2.valTag →
    alookup st.typeEthname t1.key ≠ alookup st.typeEthname t2.key

instance (ins : List TypeRegIn) (st : TypeLoopState) :
    Decidable (typeCollisionFree ins st) := by
  unfold typeCollisionFree
  infer_instance

/-- The header-field registry consistency that the suffix rule maintains on
runs without a suffix-overwrite: (i) the `eth_hf` keys are exactly the
`eth_hf_ord` entries; (ii) every resolved field's assigned wire name holds
an `eth_hf` entry whose underlying ethtype+modified combo is the field's
own; (iii) every duplicate-table binding `combo ↦ name` points at an
`eth_hf` entry carrying exactly that combo. -/
def HfNamesOk (st : HfState) : Prop :=
  (∀ nm, ahas st.ethHf nm = true ↔ nm ∈ st.ethHfOrd)
  ∧ (∀ p ∈ st.fieldResolved, ∃ e, alookup st.ethHf p.2.2.1 = some e
      ∧ e.ethtype ++ e.modified = p.2.2.2)
  ∧ (∀ nm dmap, alookup st.ethHfDupl nm = some dmap →
      ∀ cm nme, alookup dmap cm = some nme →
        ∃ e, alookup st.ethHf nme = some e ∧ e.ethtype ++ e.modified = cm)

/-- The type-registry consistency the main type loop maintains: every key's
recorded ethname holds an `eth_type` entry that either is an import entry
or lists the key among its `ref`s; `eth_type_ord` is duplicate-free and all
its entries are `eth_type` keys. -/
def TypeNamesOk (st : TypeLoopState) : Prop :=
  (∀ k nm, alookup st.typeEthname k = some nm →
    ∃ e, alookup st.ethType nm = some e ∧ (e.isImport = true ∨ k ∈ e.ref))
  ∧ st.ethTypeOrd.Nodup
  ∧ (∀ nm ∈ st.ethTypeOrd, ahas st.ethType nm = true)

/-! ## Concrete runs for the collision counterexample (C3) -/

/-- Three fields: `A/x : T1`, `B/x1 : T2`, `C/x : T3` over three distinct
registered types.  The third field's base name `x` collides with the first
at a different type, so it receives the suffixed name `x1` — which is never
re-checked against the registry and silently collides with the second
field's name. -/
def c3Fields : List FieldIn :=
  [⟨"A/x", "T1", "", false, ""⟩, ⟨"B/x1", "T2", "", false, ""⟩,
   ⟨"C/x", "T3", "", false, ""⟩]

def c3Attr : Attr4 := ⟨"FT_NONE", "BASE_NONE", "NULL", "0"⟩

def c3FieldSt0 : HfState :=
  ⟨[("T1", ⟨none, "P", "T1", c3Attr⟩), ("T2", ⟨none, "P", "T2", c3Attr⟩),
    ("T3", ⟨none, "P", "T3", c3Attr⟩)], [], [], [], [], [], []⟩

def c3FieldRun : HfState := hfLoop [] "P" c3Fields c3FieldSt0

/-- Two top-level types with distinct underlying AST nodes whose `tname`s
coincide (e.g. through a `TYPE_RENAME` of `Bar` to `Foo`): the newcomer is
merged into the existing entry instead of receiving a suffix. -/
def c3TypeIns : List TypeRegIn :=
  [⟨"Foo", "Foo", false, false, "IntegerType", 0, 0, 0⟩,
   ⟨"Bar", "Foo", false, true, "BooleanType", 0, 0, 0⟩]

def c3TypeRun : Except String TypeLoopState := typeLoop "P" c3TypeIns (typeLoopInit [])

def c3TypeSt : TypeLoopState :=
  ⟨[("Foo", .defined "P" 0 0 0 "IntegerType" ["Foo", "Bar"])], ["Foo"], [], [],
   [("Foo", "Foo"), ("Bar", "Foo")]⟩

/-! ## Concrete collision-free run (C3 witness) -/

/-- Two fields with distinct base names over one type: no collision, so the
suffix rule never fires and the final order is duplicate-free. -/
def c3wFields : List FieldIn :=
  [⟨"M/a", "T1", "", false, ""⟩, ⟨"M/b", "T1", "", false, ""⟩]

def c3wSt0 : HfState := ⟨[], [], [], [], [], [], []⟩

/-! ## Concrete run for scenario S1 (C5): `Age ::= INTEGER (0..120)` -/

/-- The attribute bag `eth_reg_type` stores for a non-`Type_Ref` node
(lines 467–469): `{TYPE, DISPLAY}` from `eth_ftype()`, `STRINGS` from
`eth_strings()`, `BITMASK '0'`. -/
def regTypeAttrInteger (named_list : Bool) (constr : Option IntConstrM) : Attr4 :=
  ⟨(eth_ftype_integer constr).1, (eth_ftype_integer constr).2,
   eth_strings_integer named_list, "0"⟩

def c5Constr : Option IntConstrM := some (.valueRange "0" "120" false)

def c5TypeIns : List TypeRegIn := [⟨"Age", "Age", false, false, "IntegerType", 0, 0, 0⟩]

def c5TypeSt : TypeLoopState :=
  ⟨[("Age", .defined "P" 0 0 0 "IntegerType" ["Age"])], ["Age"], [], [],
   [("Age", "Age")]⟩

/-- The field loop for this input runs over an empty `field_ord`: a bare
type assignment registers no field (`Type.eth_reg` with `ident = ''`
skips `eth_reg_field`). -/
def c5HfRun : HfState :=
  hfLoop [] "P" []
    ⟨[("Age", ⟨none, "P", "Age", regTypeAttrInteger false c5Constr⟩)],
     [], [], [], [], [], []⟩

def c5Info : String → FnEmitInfo := fun _ => ⟨false, false, 0, 0⟩

/-! ## eth_prepare: value-dependency recording and export propagation
(lines 559–580)

`self.value` entries carry an `import` marker and an `export` flag; each
registered value contributes at most one dependency candidate (the result
of `get_dep()` on a `Value` node, or the raw stored value when it is a
name string; `none` models a Python-falsy candidate).  The worklist in the
source aliases the stored dependency lists (`deparr = value_dep.get(v, [])`
is the stored list object, drained by `pop()`), but a drained list is only
ever re-read for values whose export flag was already nonzero at their own
outer-loop turn — and those were skipped, their list intact — so the pure
(non-aliasing) embedding computes the same final export flags. -/

structure VEntry where
  imp : Option String
  exportFlag : Nat
  deriving Repr, DecidableEq

abbrev VTbl := List (String × VEntry)

def depGet (dep : List (String × List String)) (v : String) : List String :=
  (alookup dep v).getD []

/-- The dependency-recording loop (lines 561–570): `for v in value_ord`,
append `dep` when it is truthy and `self.value.has_key(dep)`. -/
def buildValueDep (tbl : VTbl) (cands : List (String × Option String)) :
    List (String × List String) :=
  cands.foldl (fun dep p =>
    match p.2 with
    | some d =>
        if ahas tbl d then
          match alookup dep p.1 with
          | some l => aupdate dep p.1 (l ++ [d])
          | none => aupdate dep p.1 [d]
        else dep
    | none => dep) []

/-- Number of table entries with export flag 0 — the termination measure of
the propagation worklist. -/
def countZeros (tbl : VTbl) : Nat :=
  (tbl.filter (fun p => p.2.exportFlag == 0)).length

/-- The inner `while deparr:` worklist (lines 575–580).  The Lean list is
the reverse of the Python list: `deparr.pop()` takes the Python tail, i.e.
the Lean head; `deparr.extend(L)` appends `L` at the Python tail, i.e.
prepends `L.reverse` in Lean. -/
def walkExport (dep : List (String × List String)) :
    VTbl → List String → VTbl
  | tbl, [] => tbl
  | tbl, d :: ws =>
    match h : alookup tbl d with
    | none => walkExport dep tbl ws   -- unreachable: worklist entries passed has_key
    | some r =>
      if r.imp.isSome then walkExport dep tbl ws
      else if r.exportFlag ≠ 0 then walkExport dep tbl ws
      else walkExport dep (aupdate tbl d ⟨r.imp, 0x01⟩) ((depGet dep d).reverse ++ ws)
  termination_by tbl ws => (countZeros tbl, ws.length)
  decreasing_by
  · exact Prod.Lex.right _ (Nat.lt_succ_self _)
  · exact Prod.Lex.right _ (Nat.lt_succ_self _)
  · exact Prod.Lex.right _ (Nat.lt_succ_self _)
  · apply Prod.Lex.left
    -- the updated entry moves from zero to nonzero, so the zero count drops
    rename_i himp hexp
    clear ws
    have hexp0 : r.exportFlag = 0 := by omega
    have hcons : ∀ (x : VEntry) (kk : String) (l : List (String × VEntry)),
        countZeros ((kk, x) :: l)
          = (if x.exportFlag == 0 then 1 else 0) + countZeros l := by
      intro x kk l
      unfold countZeros
      by_cases hx : x.exportFlag == 0 <;> simp [List.filter, hx, Nat.add_comm]
    have key : ∀ (l : VTbl) (rr : VEntry), alookup l d = some rr →
        rr.exportFlag = 0 → countZeros (aupdate l d ⟨rr.imp, 1⟩) < countZeros l := by
      intro l
      induction l with
      | nil => intro rr hl _; cases hl
      | cons hd t ih =>
        intro rr hl hz
        obtain ⟨k, v⟩ := hd
        by_cases hk : k = d
        · subst hk
          unfold alookup at hl
          rw [if_pos rfl] at hl
          injection hl with hl
          subst hl
          unfold aupdate
          rw [if_pos rfl]
          rw [hcons, hcons]
          have h1 : (((⟨v.imp, 1⟩ : VEntry)).exportFlag == 0) = false := by
            simp
          have h0 : (v.exportFlag == 0) = true := by simp [hz]
          rw [h1, h0]
          have hx : countZeros t < 1 + countZeros t := by omega
          simpa using hx
        · unfold alookup at hl
          rw [if_neg hk] at hl
          unfold aupdate
          rw [if_neg hk]
          rw [hcons, hcons]
          have := ih rr hl hz
          omega
    exact key tbl r h hexp0

/-- One outer-loop iteration (lines 572–574): skip a value whose export
flag is zero, otherwise walk its dependency list. -/
def propStep (dep : List (String × List String)) (tbl : VTbl) (v : String) : VTbl :=
  match alookup tbl v with
  | none => tbl   -- unreachable: value_ord keys are registered
  | some r =>
      if r.exportFlag ≠ 0 then walkExport dep tbl (depGet dep v).reverse
      else tbl

/-- The outer propagation loop (lines 572–580). -/
def propagateExports (dep : List (String × List String))
    (valueOrd : List String) (tbl : VTbl) : VTbl :=
  valueOrd.foldl (propStep dep) tbl

/-- Reachability in the recorded value-dependency graph through values that
are registered (present in the table) and not imports. -/
inductive NonImpReach (tbl : VTbl) (dep : List (String × List String)) :
    String → String → Prop where
  | step (v d : String) : d ∈ depGet dep v →
      (∃ r, alookup tbl d = some r ∧ r.imp = none) →
      NonImpReach tbl dep v d
  | trans (v d w : String) : d ∈ depGet dep v →
      (∃ r, alookup tbl d = some r ∧ r.imp = none) →
      NonImpReach tbl dep d w →
      NonImpReach tbl dep v w

/-! ## eth_prepare: dependency DFS (lines 668–709)

The walk keeps an explicit stack of type keys (`stack`), the map of
still-unprocessed dependencies per stacked key (`stackx`), the set of
already-emitted ethnames (`x`), the emission order (`eth_type_ord1`,
here `ord1`) and the recorded cycles.  The Lean `stack` list is the
reverse of the Python list: its head is `stack[-1]`, the top.  `popped`
is an observer recording the keys in pop order (the key whose ethname was
appended to `ord1` at each step).  The loop is written with a step budget
(`fuel`); the ordering theorems below hold for every budget, the walk of a
finite registry completing within any sufficiently large one. -/

/-- `self.type_dep.get(t, [])[:]`. -/
def depsGet (deps : List (String × List String)) (k : String) : List String :=
  (alookup deps k).getD []

/-- `del d[k]` on an association list. -/
def aerase {α : Type} : List (String × α) → String → List (String × α)
  | [], _ => []
  | (k, v) :: t, key => if k = key then t else (k, v) :: aerase t key

/-- The per-key registry data the DFS reads: dependency lists,
`self.type[k]['ethname']` and the truthiness of `self.type[k]['import']`. -/
structure DfsIn where
  typeOrd : List String
  deps : List (String × List String)
  ethname : String → String
  imp : String → Bool

structure DfsState where
  stack : List String
  stackx : List (String × List String)
  x : List String
  ord1 : List String
  cycles : List (List String)
  popped : List String

/-- The inner `while stack:` loop (lines 680–701). -/
def dfsLoop (g : DfsIn) : Nat → DfsState → DfsState
  | 0, st => st
  | fuel + 1, st =>
    match st.stack with
    | [] => st
    | top :: rest =>
      match alookup st.stackx top with
      | none => st   -- unreachable: stacked keys always have a stackx entry
      | some [] =>
          -- pop: emit the key's ethname
          dfsLoop g fuel { st with
            stack := rest,
            stackx := aerase st.stackx top,
            ord1 := st.ord1 ++ [g.ethname top],
            x := st.x ++ [g.ethname top],
            popped := st.popped ++ [top] }
      | some (d :: ds) =>
          let st := { st with stackx := aupdate st.stackx top ds }
          if st.x.contains (g.ethname d) || g.imp d then
            dfsLoop g fuel st
          else if ahas st.stackx d then
            -- cyclic dependency: record the stack slice from `d` to the top
            let c := (d :: (top :: rest).take ((top :: rest).indexOf d + 1)).reverse
            dfsLoop g fuel { st with cycles := st.cycles ++ [c] }
          else
            dfsLoop g fuel { st with
              stack := d :: st.stack,
              stackx := aupdate st.stackx d (depsGet g.deps d) }

/-- The outer `for t in self.type_ord:` loop (lines 674–701). -/
def dfsOuter (g : DfsIn) (fuel : Nat) : DfsState :=
  g.typeOrd.foldl (fun st t =>
    if st.x.contains (g.ethname t) then st
    else dfsLoop g fuel { st with stack := [t], stackx := [(t, depsGet g.deps t)] })
    ⟨[], [], [], [], [], []⟩

/-- `d` sits strictly above `k` on the stack (closer to the top). -/
def Above (stack : List String) (k d : String) : Prop :=
  ∃ s1 s2, stack = s1 ++ k :: s2 ∧ d ∈ s1

/-- The ways a consumed dependency `d` of a stacked key `k` is accounted
for: an import, already emitted, still above `k` on the stack, or recorded
in a cycle together with `k`. -/
def DepOk (g : DfsIn) (st : DfsState) (k d : String) : Prop :=
  g.imp d = true
  ∨ g.ethname d ∈ st.ord1
  ∨ Above st.stack k d
  ∨ ∃ c ∈ st.cycles, d ∈ c ∧ k ∈ c

/-- The DFS loop invariant. -/
structure DfsInv (g : DfsIn) (st : DfsState) : Prop where
  x_eq : st.x = st.ord1
  stack_nodup : st.stack.Nodup
  keys_nodup : (st.stackx.map Prod.fst).Nodup
  keys_stack : ∀ k, ahas st.stackx k = true ↔ k ∈ st.stack
  consumed : ∀ k ∈ st.stack, ∃ rem pre, alookup st.stackx k = some rem
      ∧ depsGet g.deps k = pre ++ rem ∧ ∀ d ∈ pre, DepOk g st k d
  popped_ok : ∀ k ∈ st.popped, ∀ d ∈ depsGet g.deps k,
      g.imp d = true
      ∨ (∃ i j, i < j ∧ st.ord1.get? i = some (g.ethname d)
          ∧ st.ord1.get? j = some (g.ethname k))
      ∨ ∃ c ∈ st.cycles, k ∈ c

/-- The definition-emitting entries of the `packet-*-fn.c` item stream. -/
def defnNames (items : List OutItem) : List String :=
  items.filterMap fun it =>
    match it with
    | .defn nm => some nm
    | _ => none

/-- Whether the main output loop emits a full definition for ethname `t`. -/
def emitsDefn (info : String → FnEmitInfo) (t : String) : Bool :=
  !(info t).isImport && ((info t).noEmit &&& 0x01 == 0)
    && ((info t).userDef &&& 0x01 == 0)

/-! ## Concrete run for the forward-declaration counterexample (C1)

Two mutually recursive types `A` and `B`.  The DFS records the single
cycle `[A, B, A]`; only its entry point `A` receives a forward
declaration in the output stream, although `B` is equally a cycle member
referenced by `A`. -/

def c1Deps : List (String × List String) := [("A", ["B"]), ("B", ["A"])]

def c1G : DfsIn := ⟨["A", "B"], c1Deps, fun s => s, fun _ => false⟩

def c1St : DfsState := dfsOuter c1G 10

def c1Info : String → FnEmitInfo := fun _ => ⟨false, false, 0, 0⟩

def c1Items : List OutItem :=
  ethOutputItems true c1St.ord1 c1St.cycles (fun s => s) c1Info []

/-! ## Specification lemmas for the enumeration numbering -/

/-- Just the `(val, ident)` pairs appended by the root loop, as a direct
recursion (same computation as `enumLoopRoot`, with the accumulator made
explicit below in `enumLoopRoot_vals`). -/
def rootProduced : List EnumItem → ℤ → Finset ℤ → List (Int × String)
  | [], _, _ => []
  | .named nm x :: rest, lastv, used => (x, nm) :: rootProduced rest lastv used
  | .ident nm :: rest, lastv, used =>
      let v := nextFree used lastv
      (v, nm) :: rootProduced rest v (insert v used)

/-- The claim-side characterisation of the root-enumeration numbering:
explicitly numbered items keep their declared value; each unnumbered item
receives the least value that is ≥ the previously auto-assigned value
(initially 0), is not claimed by an explicitly numbered root item, and was
not already auto-assigned. -/
inductive RootAssignOk (explicit : Finset ℤ) :
    List EnumItem → ℤ → Finset ℤ → List (Int × String) → Prop where
  | nil (prev : ℤ) (autos : Finset ℤ) : RootAssignOk explicit [] prev autos []
  | named (nm : String) (x : ℤ) (prev : ℤ) (autos : Finset ℤ)
      (rest : List EnumItem) (out : List (Int × String)) :
      RootAssignOk explicit rest prev autos out →
      RootAssignOk explicit (.named nm x :: rest) prev autos ((x, nm) :: out)
  | ident (nm : String) (v prev : ℤ) (autos : Finset ℤ)
      (rest : List EnumItem) (out : List (Int × String)) :
      IsLeast {w : ℤ | prev ≤ w ∧ w ∉ explicit ∧ w ∉ autos} v →
      RootAssignOk explicit rest v (insert v autos) out →
      RootAssignOk explicit (.ident nm :: rest) prev autos ((v, nm) :: out)

/-! ## Supporting lemmas -/

theorem alookup_aupdate_self {α : Type} (l : List (String × α)) (k : String) (v : α) :
    alookup (aupdate l k v) k = some v := by
  induction l with
  | nil => simp [aupdate, alookup]
  | cons h t ih =>
    obtain ⟨k', v'⟩ := h
    by_cases hk : k' = k
    · subst hk; simp [aupdate, alookup]
    · simp [aupdate, alookup, hk, ih]

theorem alookup_aupdate_ne {α : Type} (l : List (String × α)) (k k' : String) (v : α)
    (h : k ≠ k') : alookup (aupdate l k v) k' = alookup l k' := by
  induction l with
  | nil => simp [aupdate, alookup, h]
  | cons hd t ih =>
    obtain ⟨k₀, v₀⟩ := hd
    by_cases hk : k₀ = k
    · subst hk; simp [aupdate, alookup, h]
    · simp [aupdate, alookup, hk, ih]

theorem nextFreeAux_isLeast :
    ∀ (n : Nat) (used : Finset ℤ) (v : ℤ),
      (used.filter (fun u => v ≤ u)).card < n →
      IsLeast {w : ℤ | v ≤ w ∧ w ∉ used} (nextFreeAux n used v) := by
  intro n
  induction n with
  | zero => intro used v h; omega
  | succ n ih =>
    intro used v h
    by_cases hv : v ∈ used
    · rw [nextFreeAux, if_pos hv]
      have hss : used.filter (fun u => v + 1 ≤ u) ⊂ used.filter (fun u => v ≤ u) := by
        constructor
        · intro x hx
          simp only [Finset.mem_filter] at hx ⊢
          exact ⟨hx.1, by linarith [hx.2]⟩
        · intro hsub
          have hvmem : v ∈ used.filter (fun u => v ≤ u) := by
            simp only [Finset.mem_filter]; exact ⟨hv, le_refl v⟩
          have := hsub hvmem
          simp only [Finset.mem_filter] at this
          linarith [this.2]
      have hcard : (used.filter (fun u => v + 1 ≤ u)).card < n := by
        have := Finset.card_lt_card hss
        omega
      have hIH := ih used (v + 1) hcard
      constructor
      · exact ⟨by linarith [hIH.1.1], hIH.1.2⟩
      · intro w hw
        have hwv : v + 1 ≤ w := by
          rcases hw with ⟨hvw, hwnot⟩
          have : w ≠ v := fun hc => hwnot (hc ▸ hv)
          omega
        exact hIH.2 ⟨hwv, hw.2⟩
    · rw [nextFreeAux, if_neg hv]
      exact ⟨⟨le_refl v, hv⟩, fun w hw => hw.1⟩

theorem nextFree_isLeast (used : Finset ℤ) (v : ℤ) :
    IsLeast {w : ℤ | v ≤ w ∧ w ∉ used} (nextFree used v) := by
  apply nextFreeAux_isLeast
  have := Finset.card_filter_le used (fun u => v ≤ u)
  omega

theorem enumLoopRoot_vals (items : List EnumItem) (st : EnumValsState) :
    (enumLoopRoot items st).vals = st.vals ++ rootProduced items st.lastv st.used := by
  induction items generalizing st with
  | nil => simp [enumLoopRoot, rootProduced]
  | cons e rest ih =>
    cases e with
    | named nm x => simp [enumLoopRoot, rootProduced, ih]
    | ident nm => simp [enumLoopRoot, rootProduced, ih]

theorem enumLoopExt_vals_prefix (items : List EnumItem) (st : EnumValsState) :
    ∃ tl, (enumLoopExt items st).vals = st.vals ++ tl := by
  induction items generalizing st with
  | nil => exact ⟨[], by simp [enumLoopExt]⟩
  | cons e rest ih =>
    cases e with
    | named nm x =>
      obtain ⟨tl, htl⟩ := ih { st with vals := st.vals ++ [(x, nm)],
                                       maxv := if x > st.maxv then x else st.maxv }
      exact ⟨(x, nm) :: tl, by simp [enumLoopExt, htl]⟩
    | ident nm =>
      obtain ⟨tl, htl⟩ := ih { st with
        vals := st.vals ++ [(nextFree st.used st.lastv, nm)],
        lastv := nextFree st.used st.lastv,
        maxv := if nextFree st.used st.lastv > st.maxv then nextFree st.used st.lastv
                else st.maxv }
      exact ⟨(nextFree st.used st.lastv, nm) :: tl, by simp [enumLoopExt, htl]⟩

theorem rootProduced_assignOk (explicit : Finset ℤ) :
    ∀ (items : List EnumItem) (prev : ℤ) (autos used : Finset ℤ),
      used = explicit ∪ autos →
      RootAssignOk explicit items prev autos (rootProduced items prev used) := by
  intro items
  induction items with
  | nil => intro prev autos used _; exact .nil prev autos
  | cons e rest ih =>
    intro prev autos used h
    cases e with
    | named nm x =>
      exact .named nm x prev autos rest _ (ih prev autos used h)
    | ident nm =>
      subst h
      refine .ident nm _ prev autos rest _ ?_ ?_
      · have hl := nextFree_isLeast (explicit ∪ autos) prev
        have hset : {w : ℤ | prev ≤ w ∧ w ∉ explicit ∪ autos}
            = {w : ℤ | prev ≤ w ∧ w ∉ explicit ∧ w ∉ autos} := by
          ext w; simp [Finset.mem_union, not_or, and_assoc]
        rw [hset] at hl
        exact hl
      · have hins : insert (nextFree (explicit ∪ autos) prev) (explicit ∪ autos)
            = explicit ∪ insert (nextFree (explicit ∪ autos) prev) autos := by
          rw [Finset.union_insert]
        simpa [rootProduced] using
          ih (nextFree (explicit ∪ autos) prev)
            (insert (nextFree (explicit ∪ autos) prev) autos)
            (insert (nextFree (explicit ∪ autos) prev) (explicit ∪ autos)) hins

/-! ### Export-propagation lemmas (C2) -/

theorem walkExport_nil (dep : List (String × List String)) (tbl : VTbl) :
    walkExport dep tbl [] = tbl := by
  rw [walkExport]

theorem walkExport_cons_none (dep : List (String × List String)) (tbl : VTbl)
    (d : String) (ws : List String) (h : alookup tbl d = none) :
    walkExport dep tbl (d :: ws) = walkExport dep tbl ws := by
  rw [walkExport, h]

theorem walkExport_cons_imp (dep : List (String × List String)) (tbl : VTbl)
    (d : String) (ws : List String) (r : VEntry) (h : alookup tbl d = some r)
    (hi : r.imp.isSome = true) :
    walkExport dep tbl (d :: ws) = walkExport dep tbl ws := by
  rw [walkExport, h]
  simp [hi]

theorem walkExport_cons_exported (dep : List (String × List String)) (tbl : VTbl)
    (d : String) (ws : List String) (r : VEntry) (h : alookup tbl d = some r)
    (hi : r.imp.isSome = false) (hx : r.exportFlag ≠ 0) :
    walkExport dep tbl (d :: ws) = walkExport dep tbl ws := by
  rw [walkExport, h]
  simp [hi, hx]

theorem walkExport_cons_set (dep : List (String × List String)) (tbl : VTbl)
    (d : String) (ws : List String) (r : VEntry) (h : alookup tbl d = some r)
    (hi : r.imp.isSome = false) (hx : r.exportFlag = 0) :
    walkExport dep tbl (d :: ws)
      = walkExport dep (aupdate tbl d ⟨r.imp, 0x01⟩) ((depGet dep d).reverse ++ ws) := by
  rw [walkExport, h]
  simp [hi, hx]

/-- How the table evolves across the propagation: every entry is either
untouched, or was a non-exported entry and now carries exactly flag
`0x01` (the import marker unchanged). -/
def ExpEvolves (m m' : VTbl) : Prop :=
  ∀ a, alookup m' a = alookup m a
    ∨ ∃ r, alookup m a = some r ∧ r.exportFlag = 0
        ∧ alookup m' a = some ⟨r.imp, 0x01⟩

theorem expEvolves_refl (m : VTbl) : ExpEvolves m m := fun _ => Or.inl rfl

theorem expEvolves_trans {m₁ m₂ m₃ : VTbl}
    (h₁ : ExpEvolves m₁ m₂) (h₂ : ExpEvolves m₂ m₃) : ExpEvolves m₁ m₃ := by
  intro a
  rcases h₂ a with h | ⟨r, hr, hz, hr'⟩
  · rcases h₁ a with h' | ⟨r, hr, hz, hr'⟩
    · exact Or.inl (h.trans h')
    · exact Or.inr ⟨r, hr, hz, h.trans hr'⟩
  · rcases h₁ a with h' | ⟨r₀, hr₀, hz₀, hr₀'⟩
    · exact Or.inr ⟨r, h'.symm.trans hr, hz, hr'⟩
    · -- m₂'s entry at a is `⟨r₀.imp, 1⟩`, which has flag 1 ≠ 0, contradicting hz
      rw [hr₀'] at hr
      injection hr with hr
      rw [← hr] at hz
      simp at hz

theorem expEvolves_nonzero {m m' : VTbl} (h : ExpEvolves m m') {a : String}
    {r : VEntry} (hr : alookup m a = some r) (hz : r.exportFlag ≠ 0) :
    ∃ r', alookup m' a = some r' ∧ r'.exportFlag ≠ 0 ∧ r'.imp = r.imp := by
  rcases h a with he | ⟨r₀, hr₀, hz₀, hr₀'⟩
  · exact ⟨r, he.trans hr, hz, rfl⟩
  · rw [hr₀] at hr; injection hr with hr; subst hr
    exact absurd hz₀ hz

theorem expEvolves_entry {m m' : VTbl} (h : ExpEvolves m m') {a : String}
    {r : VEntry} (hr : alookup m a = some r) :
    ∃ r', alookup m' a = some r' ∧ r'.imp = r.imp := by
  rcases h a with he | ⟨r₀, hr₀, _, hr₀'⟩
  · exact ⟨r, he.trans hr, rfl⟩
  · have heq : r₀ = r := by rw [hr₀] at hr; exact Option.some.inj hr
    rw [heq] at hr₀'
    exact ⟨⟨r.imp, 0x01⟩, hr₀', rfl⟩

theorem walkExport_evolves (dep : List (String × List String)) :
    ∀ (tbl : VTbl) (ws : List String), ExpEvolves tbl (walkExport dep tbl ws) := by
  intro tbl ws
  induction tbl, ws using walkExport.induct dep with
  | case1 tbl =>
      rw [walkExport_nil]
      exact expEvolves_refl tbl
  | case2 tbl d ws h ih =>
      rw [walkExport_cons_none dep tbl d ws h]
      exact ih
  | case3 tbl d ws r h hi ih =>
      rw [walkExport_cons_imp dep tbl d ws r h hi]
      exact ih
  | case4 tbl d ws r h hi hx ih =>
      rw [walkExport_cons_exported dep tbl d ws r h (by simp [hi]) hx]
      exact ih
  | case5 tbl d ws r h hi hx ih =>
      have hx0 : r.exportFlag = 0 := by omega
      rw [walkExport_cons_set dep tbl d ws r h (by simp [hi]) hx0]
      refine @expEvolves_trans _ (aupdate tbl d ⟨r.imp, 0x01⟩) _ ?_ ih
      intro a
      by_cases ha : a = d
      · subst ha
        exact Or.inr ⟨r, h, hx0, alookup_aupdate_self _ _ _⟩
      · exact Or.inl (alookup_aupdate_ne _ _ _ _ (fun hc => ha hc.symm))

/-- After a walk, every worklist entry that is registered and not an import
carries a nonzero flag; and every entry that ends up nonzero either started
nonzero or has all its registered non-import dependencies nonzero in the
result. -/
theorem walkExport_covers_closed (dep : List (String × List String)) :
    ∀ (tbl : VTbl) (ws : List String),
      (∀ d ∈ ws, ∀ r, alookup tbl d = some r → r.imp = none →
        ∃ r', alookup (walkExport dep tbl ws) d = some r' ∧ r'.exportFlag ≠ 0)
    ∧ (∀ a r', alookup (walkExport dep tbl ws) a = some r' → r'.exportFlag ≠ 0 →
        (∃ r, alookup tbl a = some r ∧ r.exportFlag ≠ 0)
        ∨ (∀ e ∈ depGet dep a, ∀ re, alookup tbl e = some re → re.imp = none →
            ∃ re', alookup (walkExport dep tbl ws) e = some re' ∧ re'.exportFlag ≠ 0)) := by
  intro tbl ws
  induction tbl, ws using walkExport.induct dep with
  | case1 tbl =>
      constructor
      · intro d hd; exact absurd hd (List.not_mem_nil d)
      · intro a r' ha hz
        rw [walkExport_nil] at ha
        exact Or.inl ⟨r', ha, hz⟩
  | case2 tbl d ws h ih =>
      obtain ⟨ihC, ihX⟩ := ih
      rw [walkExport_cons_none dep tbl d ws h]
      constructor
      · intro d' hd' r hr hni
        rcases List.mem_cons.mp hd' with rfl | hmem
        · rw [h] at hr; cases hr
        · exact ihC d' hmem r hr hni
      · exact ihX
  | case3 tbl d ws r h hi ih =>
      obtain ⟨ihC, ihX⟩ := ih
      rw [walkExport_cons_imp dep tbl d ws r h hi]
      constructor
      · intro d' hd' r₀ hr₀ hni
        rcases List.mem_cons.mp hd' with rfl | hmem
        · rw [h] at hr₀
          injection hr₀ with hr₀
          rw [hr₀] at hi
          rw [hni] at hi
          cases hi
        · exact ihC d' hmem r₀ hr₀ hni
      · exact ihX
  | case4 tbl d ws r h hi hx ih =>
      obtain ⟨ihC, ihX⟩ := ih
      rw [walkExport_cons_exported dep tbl d ws r h (by simp [hi]) hx]
      constructor
      · intro d' hd' r₀ hr₀ hni
        rcases List.mem_cons.mp hd' with rfl | hmem
        · have hev := walkExport_evolves dep tbl ws
          obtain ⟨r', hr', hz', _⟩ := expEvolves_nonzero hev hr₀ (by
            rw [h] at hr₀; injection hr₀ with hr₀; rw [hr₀] at hx; exact hx)
          exact ⟨r', hr', hz'⟩
        · exact ihC d' hmem r₀ hr₀ hni
      · exact ihX
  | case5 tbl d ws r h hi hx ih =>
      obtain ⟨ihC, ihX⟩ := ih
      have hx0 : r.exportFlag = 0 := by omega
      rw [walkExport_cons_set dep tbl d ws r h (by simp [hi]) hx0]
      have himp : r.imp = none := by
        cases hr : r.imp with
        | none => rfl
        | some m => rw [hr] at hi; simp at hi
      -- entry translation between `tbl` and the updated table
      have hupd : ∀ e re, alookup tbl e = some re → re.imp = none →
          ∃ re', alookup (aupdate tbl d ⟨r.imp, 0x01⟩) e = some re' ∧ re'.imp = none := by
        intro e re hre hni
        by_cases hed : e = d
        · subst hed
          exact ⟨⟨r.imp, 0x01⟩, alookup_aupdate_self _ _ _, himp⟩
        · exact ⟨re, by rw [alookup_aupdate_ne _ _ _ _ (fun hc => hed hc.symm)]; exact hre, hni⟩
      constructor
      · intro d' hd' r₀ hr₀ hni
        rcases List.mem_cons.mp hd' with rfl | hmem
        · have hev := walkExport_evolves dep (aupdate tbl d' ⟨r.imp, 0x01⟩)
            ((depGet dep d').reverse ++ ws)
          obtain ⟨r', hr', hz', _⟩ := expEvolves_nonzero hev
            (alookup_aupdate_self tbl d' ⟨r.imp, 0x01⟩) (by simp)
          exact ⟨r', hr', hz'⟩
        · obtain ⟨re', hre', hni'⟩ := hupd d' r₀ hr₀ hni
          exact ihC d' (List.mem_append_right _ hmem) re' hre' hni'
      · intro a r' ha hz
        rcases ihX a r' ha hz with ⟨r₁, hr₁, hz₁⟩ | hdeps
        · by_cases had : a = d
          · subst had
            right
            intro e he re hre hni
            obtain ⟨re', hre', hni'⟩ := hupd e re hre hni
            exact ihC e (List.mem_append_left _ (List.mem_reverse.mpr he)) re' hre' hni'
          · left
            rw [alookup_aupdate_ne _ _ _ _ (fun hc => had hc.symm)] at hr₁
            exact ⟨r₁, hr₁, hz₁⟩
        · right
          intro e he re hre hni
          obtain ⟨re', hre', hni'⟩ := hupd e re hre hni
          exact hdeps e he re' hre' hni'

theorem propStep_evolves (dep : List (String × List String)) (tbl : VTbl)
    (v : String) : ExpEvolves tbl (propStep dep tbl v) := by
  unfold propStep
  rcases h : alookup tbl v with _ | r
  · exact expEvolves_refl tbl
  · dsimp only
    by_cases hz : r.exportFlag ≠ 0
    · rw [if_pos hz]; exact walkExport_evolves dep tbl (depGet dep v).reverse
    · rw [if_neg hz]; exact expEvolves_refl tbl

theorem propagateExports_evolves (dep : List (String × List String)) :
    ∀ (valueOrd : List String) (tbl : VTbl),
      ExpEvolves tbl (propagateExports dep valueOrd tbl) := by
  intro valueOrd
  induction valueOrd with
  | nil => intro tbl; exact expEvolves_refl tbl
  | cons v rest ih =>
    intro tbl
    exact expEvolves_trans (propStep_evolves dep tbl v) (ih (propStep dep tbl v))

theorem propagateExports_cons (dep : List (String × List String)) (v : String)
    (rest : List String) (tbl : VTbl) :
    propagateExports dep (v :: rest) tbl
      = propagateExports dep rest (propStep dep tbl v) := rfl

/-- O2: the dependencies of every value that is nonzero-exported at the
start of the loop end up nonzero. -/
theorem propagateExports_covers (dep : List (String × List String)) :
    ∀ (valueOrd : List String) (tbl : VTbl) (v : String), v ∈ valueOrd →
      ∀ rv, alookup tbl v = some rv → rv.exportFlag ≠ 0 →
      ∀ e ∈ depGet dep v, ∀ re, alookup tbl e = some re → re.imp = none →
      ∃ re', alookup (propagateExports dep valueOrd tbl) e = some re'
        ∧ re'.exportFlag ≠ 0 := by
  intro valueOrd
  induction valueOrd with
  | nil => intro tbl v hmem; exact absurd hmem (List.not_mem_nil v)
  | cons v0 rest ih =>
    intro tbl v hmem rv hv hvz e he re hre hni
    rcases List.mem_cons.mp hmem with rfl | hmem'
    · -- this value's own iteration walks its dependency list
      have hstep : propStep dep tbl v = walkExport dep tbl (depGet dep v).reverse := by
        unfold propStep
        rw [hv]
        dsimp only
        rw [if_pos hvz]
      rw [propagateExports_cons, hstep]
      obtain ⟨re', hre', hz'⟩ := (walkExport_covers_closed dep tbl
        (depGet dep v).reverse).1 e (List.mem_reverse.mpr he) re hre hni
      obtain ⟨re'', hre'', hz'', _⟩ := expEvolves_nonzero
        (propagateExports_evolves dep rest (walkExport dep tbl (depGet dep v).reverse))
        hre' hz'
      exact ⟨re'', hre'', hz''⟩
    · rw [propagateExports_cons]
      obtain ⟨rv₁, hv₁, hvz₁, _⟩ := expEvolves_nonzero (propStep_evolves dep tbl v0) hv hvz
      obtain ⟨re₁, hre₁, hni₁⟩ := expEvolves_entry (propStep_evolves dep tbl v0) hre
      exact ih (propStep dep tbl v0) v hmem' rv₁ hv₁ hvz₁ e he re₁ hre₁ (hni₁.trans hni)

/-- O3: every entry that ends the loop nonzero either started nonzero or
has all its registered non-import dependencies nonzero at the end. -/
theorem propagateExports_closed (dep : List (String × List String)) :
    ∀ (valueOrd : List String) (tbl : VTbl) (a : String) (r' : VEntry),
      alookup (propagateExports dep valueOrd tbl) a = some r' → r'.exportFlag ≠ 0 →
      (∃ r, alookup tbl a = some r ∧ r.exportFlag ≠ 0)
      ∨ (∀ e ∈ depGet dep a, ∀ re, alookup tbl e = some re → re.imp = none →
          ∃ re', alookup (propagateExports dep valueOrd tbl) e = some re'
            ∧ re'.exportFlag ≠ 0) := by
  intro valueOrd
  induction valueOrd with
  | nil =>
    intro tbl a r' ha hz
    exact Or.inl ⟨r', ha, hz⟩
  | cons v0 rest ih =>
    intro tbl a r' ha hz
    rw [propagateExports_cons] at ha
    have htrans : ∀ e re, alookup tbl e = some re → re.imp = none →
        ∃ re', alookup (propStep dep tbl v0) e = some re' ∧ re'.imp = none := by
      intro e re hre hni
      obtain ⟨re', hre', hni'⟩ := expEvolves_entry (propStep_evolves dep tbl v0) hre
      exact ⟨re', hre', hni'.trans hni⟩
    rcases ih (propStep dep tbl v0) a r' ha hz with ⟨r₁, hr₁, hz₁⟩ | hdeps
    · -- nonzero already after the first step
      unfold propStep at hr₁
      rcases hv0 : alookup tbl v0 with _ | rv0
      · rw [hv0] at hr₁; exact Or.inl ⟨r₁, hr₁, hz₁⟩
      · rw [hv0] at hr₁
        dsimp only at hr₁
        by_cases hvz : rv0.exportFlag ≠ 0
        · rw [if_pos hvz] at hr₁
          rcases (walkExport_covers_closed dep tbl (depGet dep v0).reverse).2 a r₁
              hr₁ hz₁ with ⟨r₂, hr₂, hz₂⟩ | hdeps₂
          · exact Or.inl ⟨r₂, hr₂, hz₂⟩
          · right
            intro e he re hre hni
            obtain ⟨re', hre', hz'⟩ := hdeps₂ e he re hre hni
            have hstep : propStep dep tbl v0
                = walkExport dep tbl (depGet dep v0).reverse := by
              unfold propStep
              rw [hv0]
              dsimp only
              rw [if_pos hvz]
            obtain ⟨re'', hre'', hz'', _⟩ := expEvolves_nonzero
              (propagateExports_evolves dep rest (propStep dep tbl v0))
              (hstep ▸ hre') hz'
            exact ⟨re'', by rw [propagateExports_cons]; exact hre'', hz''⟩
        · rw [if_neg hvz] at hr₁
          exact Or.inl ⟨r₁, hr₁, hz₁⟩
    · right
      intro e he re hre hni
      obtain ⟨re', hre', hni'⟩ := htrans e re hre hni
      obtain ⟨re'', hre'', hz''⟩ := hdeps e he re' hre' hni'
      exact ⟨re'', by rw [propagateExports_cons]; exact hre'', hz''⟩

/-! ### Field-loop invariants (dummy imports) -/

theorem hfDecision_ne_inl_none (st : HfState) (nm e em : String) :
    hfDecision st nm e em ≠ .inl none := by
  unfold hfDecision
  by_cases hhas : ahas st.ethHf nm
  · rw [if_pos hhas]
    rcases hd : alookup st.ethHfDupl nm with _ | dmap
    · rcases hl : alookup st.ethHf nm with _ | cur
      · exfalso; unfold ahas at hhas; rw [hl] at hhas; simp at hhas
      · dsimp only; split <;> simp
    · dsimp only
      rcases hm : alookup dmap em with _ | nmS
      · simp
      · simp
  · rw [if_neg hhas]; simp

theorem hfAssignName_typeTbl (rename : List (String × String)) (proto : String)
    (st : HfState) (f : FieldIn) (e : String) :
    (hfAssignName rename proto st f e).typeTbl = st.typeTbl := by
  unfold hfAssignName
  dsimp only
  split <;> rfl

theorem hfAssignName_warns (rename : List (String × String)) (proto : String)
    (st : HfState) (f : FieldIn) (e : String) :
    (hfAssignName rename proto st f e).warns = st.warns := by
  unfold hfAssignName
  dsimp only
  split <;> rfl

theorem hfAssignName_ethType (rename : List (String × String)) (proto : String)
    (st : HfState) (f : FieldIn) (e : String) :
    (hfAssignName rename proto st f e).ethType = st.ethType := by
  unfold hfAssignName
  dsimp only
  split <;> rfl

theorem hfAssignName_fieldResolved (rename : List (String × String)) (proto : String)
    (st : HfState) (f : FieldIn) (e : String) :
    ∃ nmS, (hfAssignName rename proto st f e).fieldResolved
      = st.fieldResolved ++ [(f.key, hfBaseName rename f, nmS, e ++ f.modified)] := by
  unfold hfAssignName
  dsimp only
  rcases hdec : hfDecision st (hfBaseName rename f) e (e ++ f.modified)
    with opt | nmS
  · rcases opt with _ | ⟨nmF, dupl'⟩
    · exact absurd hdec (hfDecision_ne_inl_none st _ e _)
    · exact ⟨nmF, rfl⟩
  · exact ⟨nmS, rfl⟩

/-- The pair `(typeTbl present as dummy, ethType present as xxx-import)`
that a dummy-import creation establishes. -/
def dummyP (k : String) (st : HfState) : Prop :=
  alookup st.typeTbl k = some (dummyTypeEntry k)
  ∧ alookup st.ethType k = some (.imported "xxx" "xxx" [])

theorem hfStep_typeTbl_mono (rename : List (String × String)) (proto : String)
    (st : HfState) (f : FieldIn) (k : String) (v : TypeEntry)
    (h : alookup st.typeTbl k = some v) :
    alookup (hfStep rename proto st f).typeTbl k = some v := by
  unfold hfStep hfResolveType
  rcases hl : alookup st.typeTbl f.typ with _ | te
  · have hne : f.typ ≠ k := fun hc => by rw [hc, h] at hl; cases hl
    rw [hfAssignName_typeTbl]
    dsimp only
    rw [alookup_aupdate_ne _ _ _ _ hne]
    exact h
  · rw [hfAssignName_typeTbl]; exact h

theorem hfStep_preserves_dummyP (rename : List (String × String)) (proto : String)
    (st : HfState) (f : FieldIn) (k : String) (h : dummyP k st) :
    dummyP k (hfStep rename proto st f) := by
  obtain ⟨h1, h2⟩ := h
  refine ⟨hfStep_typeTbl_mono rename proto st f k _ h1, ?_⟩
  unfold hfStep hfResolveType
  rcases hl : alookup st.typeTbl f.typ with _ | te
  · have hne : f.typ ≠ k := fun hc => by rw [hc, h1] at hl; cases hl
    rw [hfAssignName_ethType]
    dsimp only
    rw [alookup_aupdate_ne _ _ _ _ hne]
    exact h2
  · rw [hfAssignName_ethType]; exact h2

theorem hfStep_warns_mono (rename : List (String × String)) (proto : String)
    (st : HfState) (f : FieldIn) (w : String) (h : w ∈ st.warns) :
    w ∈ (hfStep rename proto st f).warns := by
  unfold hfStep hfResolveType
  rcases hl : alookup st.typeTbl f.typ with _ | te
  · rw [hfAssignName_warns]; dsimp only; exact List.mem_append_left _ h
  · rw [hfAssignName_warns]; exact h

theorem hfStep_fieldResolved_mono (rename : List (String × String)) (proto : String)
    (st : HfState) (f : FieldIn) (x : String × String × String × String)
    (h : x ∈ st.fieldResolved) :
    x ∈ (hfStep rename proto st f).fieldResolved := by
  unfold hfStep
  obtain ⟨nmS, hres⟩ := hfAssignName_fieldResolved rename proto
    (hfResolveType st f).2 f (hfResolveType st f).1
  rw [hres]
  apply List.mem_append_left
  unfold hfResolveType
  rcases hl : alookup st.typeTbl f.typ with _ | te <;> simp_all [hfResolveType]

theorem hfStep_dummy_when_absent (rename : List (String × String)) (proto : String)
    (st : HfState) (f : FieldIn) (h : alookup st.typeTbl f.typ = none) :
    dummyP f.typ (hfStep rename proto st f)
    ∧ ("Dummy imported:  " ++ f.typ) ∈ (hfStep rename proto st f).warns
    ∧ ∃ nmS, (f.key, hfBaseName rename f, nmS, f.typ ++ f.modified)
        ∈ (hfStep rename proto st f).fieldResolved := by
  unfold hfStep
  have hres : hfResolveType st f =
      (f.typ,
       { st with
         warns := st.warns ++ ["Dummy imported:  " ++ f.typ],
         typeTbl := aupdate st.typeTbl f.typ (dummyTypeEntry f.typ),
         ethType := aupdate st.ethType f.typ (.imported "xxx" "xxx" []) }) := by
    unfold hfResolveType; rw [h]
  rw [hres]
  refine ⟨⟨?_, ?_⟩, ?_, ?_⟩
  · rw [hfAssignName_typeTbl]; exact alookup_aupdate_self _ _ _
  · rw [hfAssignName_ethType]; exact alookup_aupdate_self _ _ _
  · rw [hfAssignName_warns]; exact List.mem_append_right _ (List.mem_singleton.mpr rfl)
  · obtain ⟨nmS, hr⟩ := hfAssignName_fieldResolved rename proto _ f f.typ
    exact ⟨nmS, by rw [hr]; exact List.mem_append_right _ (List.mem_singleton.mpr rfl)⟩

theorem hfStep_resolved_when_dummy (rename : List (String × String)) (proto : String)
    (st : HfState) (f : FieldIn)
    (h : alookup st.typeTbl f.typ = some (dummyTypeEntry f.typ)) :
    ∃ nmS, (f.key, hfBaseName rename f, nmS, f.typ ++ f.modified)
        ∈ (hfStep rename proto st f).fieldResolved := by
  unfold hfStep
  have hres : hfResolveType st f = ((dummyTypeEntry f.typ).ethname, st) := by
    unfold hfResolveType; rw [h]
  rw [hres]
  obtain ⟨nmS, hr⟩ := hfAssignName_fieldResolved rename proto st f (dummyTypeEntry f.typ).ethname
  refine ⟨nmS, ?_⟩
  rw [hr]
  have : (dummyTypeEntry f.typ).ethname = f.typ := rfl
  rw [this]
  exact List.mem_append_right _ (List.mem_singleton.mpr rfl)

theorem hfStep_new_typeTbl_entry (rename : List (String × String)) (proto : String)
    (st : HfState) (g : FieldIn) (k : String)
    (habs : alookup st.typeTbl k = none)
    (hpres : alookup (hfStep rename proto st g).typeTbl k ≠ none) :
    k = g.typ ∧ dummyP k (hfStep rename proto st g)
    ∧ ("Dummy imported:  " ++ k) ∈ (hfStep rename proto st g).warns := by
  by_cases hk : k = g.typ
  · subst hk
    have hd := hfStep_dummy_when_absent rename proto st g habs
    exact ⟨rfl, hd.1, hd.2.1⟩
  · exfalso
    apply hpres
    unfold hfStep hfResolveType
    rcases hl : alookup st.typeTbl g.typ with _ | te
    · rw [hfAssignName_typeTbl]
      dsimp only
      rw [alookup_aupdate_ne _ _ _ _ (fun hc => hk hc.symm)]
      exact habs
    · rw [hfAssignName_typeTbl]; exact habs

theorem hfLoop_preserves_dummyP (rename : List (String × String)) (proto : String) :
    ∀ (fields : List FieldIn) (st : HfState) (k : String),
      dummyP k st → dummyP k (hfLoop rename proto fields st) := by
  intro fields
  induction fields with
  | nil => intro st k h; exact h
  | cons g rest ih =>
    intro st k h
    exact ih _ k (hfStep_preserves_dummyP rename proto st g k h)

theorem hfLoop_warns_mono (rename : List (String × String)) (proto : String) :
    ∀ (fields : List FieldIn) (st : HfState) (w : String),
      w ∈ st.warns → w ∈ (hfLoop rename proto fields st).warns := by
  intro fields
  induction fields with
  | nil => intro st w h; exact h
  | cons g rest ih =>
    intro st w h
    exact ih _ w (hfStep_warns_mono rename proto st g w h)

theorem hfLoop_fieldResolved_mono (rename : List (String × String)) (proto : String) :
    ∀ (fields : List FieldIn) (st : HfState) (x : String × String × String × String),
      x ∈ st.fieldResolved → x ∈ (hfLoop rename proto fields st).fieldResolved := by
  intro fields
  induction fields with
  | nil => intro st x h; exact h
  | cons g rest ih =>
    intro st x h
    exact ih _ x (hfStep_fieldResolved_mono rename proto st g x h)

theorem hfLoop_resolved_when_dummyP (rename : List (String × String)) (proto : String) :
    ∀ (fields : List FieldIn) (st : HfState) (f : FieldIn),
      f ∈ fields → dummyP f.typ st →
      ∃ nmS, (f.key, hfBaseName rename f, nmS, f.typ ++ f.modified)
        ∈ (hfLoop rename proto fields st).fieldResolved := by
  intro fields
  induction fields with
  | nil => intro st f h; cases h
  | cons g rest ih =>
    intro st f hmem hdum
    rcases List.mem_cons.mp hmem with rfl | hmem'
    · obtain ⟨nmS, hr⟩ := hfStep_resolved_when_dummy rename proto st f hdum.1
      exact ⟨nmS, hfLoop_fieldResolved_mono rename proto rest _ _ hr⟩
    · exact ih _ f hmem' (hfStep_preserves_dummyP rename proto st g f.typ hdum)

theorem hfLoop_dummy_import (rename : List (String × String)) (proto : String) :
    ∀ (fields : List FieldIn) (st : HfState) (f : FieldIn),
      f ∈ fields → alookup st.typeTbl f.typ = none →
      dummyP f.typ (hfLoop rename proto fields st)
      ∧ ("Dummy imported:  " ++ f.typ) ∈ (hfLoop rename proto fields st).warns
      ∧ ∃ nmS, (f.key, hfBaseName rename f, nmS, f.typ ++ f.modified)
          ∈ (hfLoop rename proto fields st).fieldResolved := by
  intro fields
  induction fields with
  | nil => intro st f h; cases h
  | cons g rest ih =>
    intro st f hmem habs
    rcases List.mem_cons.mp hmem with rfl | hmem'
    · have hd := hfStep_dummy_when_absent rename proto st f habs
      refine ⟨hfLoop_preserves_dummyP rename proto rest _ _ hd.1,
              hfLoop_warns_mono rename proto rest _ _ hd.2.1, ?_⟩
      obtain ⟨nmS, hr⟩ := hd.2.2
      exact ⟨nmS, hfLoop_fieldResolved_mono rename proto rest _ _ hr⟩
    · by_cases h2 : alookup (hfStep rename proto st g).typeTbl f.typ = none
      · exact ih _ f hmem' h2
      · obtain ⟨hk, hdum, hwarn⟩ :=
          hfStep_new_typeTbl_entry rename proto st g f.typ habs h2
        refine ⟨hfLoop_preserves_dummyP rename proto rest _ _ hdum,
                hfLoop_warns_mono rename proto rest _ _ hwarn, ?_⟩
        exact hfLoop_resolved_when_dummyP rename proto rest _ f hmem' hdum

/-! ### Dependency-DFS invariant lemmas (C1) -/

theorem alookup_isSome_iff {α : Type} (l : List (String × α)) (k : String) :
    (alookup l k).isSome = true ↔ k ∈ l.map Prod.fst := by
  induction l with
  | nil => simp [alookup]
  | cons h t ih =>
    obtain ⟨k₀, v₀⟩ := h
    by_cases hk : k₀ = k
    · subst hk; simp [alookup]
    · simp [alookup, hk, ih, Ne.symm hk]

theorem keys_aupdate_present {α : Type} (l : List (String × α)) (k : String) (v : α)
    (h : k ∈ l.map Prod.fst) : (aupdate l k v).map Prod.fst = l.map Prod.fst := by
  induction l with
  | nil => simp at h
  | cons hd t ih =>
    obtain ⟨k₀, v₀⟩ := hd
    by_cases hk : k₀ = k
    · subst hk; simp [aupdate]
    · simp only [List.map_cons, List.mem_cons] at h
      rcases h with h | h
      · exact absurd h.symm hk
      · simp [aupdate, hk, ih h]

theorem keys_aupdate_absent {α : Type} (l : List (String × α)) (k : String) (v : α)
    (h : k ∉ l.map Prod.fst) : (aupdate l k v).map Prod.fst = l.map Prod.fst ++ [k] := by
  induction l with
  | nil => simp [aupdate]
  | cons hd t ih =>
    obtain ⟨k₀, v₀⟩ := hd
    simp only [List.map_cons, List.mem_cons, not_or] at h
    have hk : k₀ ≠ k := fun e => h.1 e.symm
    simp [aupdate, hk, ih h.2]

theorem keys_aerase_sublist {α : Type} (l : List (String × α)) (k : String) :
    ((aerase l k).map Prod.fst).Sublist (l.map Prod.fst) := by
  induction l with
  | nil => simp [aerase]
  | cons hd t ih =>
    obtain ⟨k₀, v₀⟩ := hd
    by_cases hk : k₀ = k
    · simp only [aerase, if_pos hk, List.map_cons]
      exact (List.sublist_cons_self _ _)
    · simp only [aerase, if_neg hk, List.map_cons]
      exact ih.cons₂ _

theorem alookup_aerase_self {α : Type} (l : List (String × α)) (k : String)
    (h : (l.map Prod.fst).Nodup) : alookup (aerase l k) k = none := by
  induction l with
  | nil => simp [aerase, alookup]
  | cons hd t ih =>
    obtain ⟨k₀, v₀⟩ := hd
    simp only [List.map_cons, List.nodup_cons] at h
    by_cases hk : k₀ = k
    · subst hk
      simp only [aerase, if_pos rfl]
      rw [← Option.not_isSome_iff_eq_none]
      intro hs
      exact h.1 ((alookup_isSome_iff t k₀).mp hs)
    · simp [aerase, hk, alookup, ih h.2]

theorem alookup_aerase_ne {α : Type} (l : List (String × α)) (k k' : String)
    (h : k ≠ k') : alookup (aerase l k) k' = alookup l k' := by
  induction l with
  | nil => simp [aerase]
  | cons hd t ih =>
    obtain ⟨k₀, v₀⟩ := hd
    by_cases hk : k₀ = k
    · subst hk
      simp [aerase, alookup, h, ih]
    · by_cases hk' : k₀ = k'
      · subst hk'
        simp [aerase, alookup, hk]
      · simp [aerase, alookup, hk, hk', ih]

theorem ahas_aupdate_iff {α : Type} (l : List (String × α)) (k k' : String) (v : α) :
    ahas (aupdate l k v) k' = true ↔ k' = k ∨ ahas l k' = true := by
  unfold ahas
  by_cases hk : k = k'
  · subst hk; simp [alookup_aupdate_self]
  · rw [alookup_aupdate_ne l k k' v hk]
    simp [Ne.symm hk]

theorem above_extend {s : List String} {k d a : String} :
    Above s k d → Above (a :: s) k d := by
  rintro ⟨s1, s2, heq, hd⟩
  exact ⟨a :: s1, s2, by rw [heq]; rfl, List.mem_cons_of_mem _ hd⟩

theorem above_pop {top : String} {rest : List String} {k d : String}
    (hnd : (top :: rest).Nodup) (hk : k ∈ rest) :
    Above (top :: rest) k d → d = top ∨ Above rest k d := by
  rintro ⟨s1, s2, heq, hd⟩
  cases s1 with
  | nil =>
    simp only [List.nil_append] at heq
    obtain ⟨h1, h2⟩ := List.cons.inj heq
    subst h1; subst h2
    exact absurd hk (List.nodup_cons.mp hnd).1
  | cons a s1' =>
    obtain ⟨h1, h2⟩ := List.cons.inj heq
    subst h1
    rcases List.mem_cons.mp hd with h | h
    · exact Or.inl h
    · exact Or.inr ⟨s1', s2, h2, h⟩

theorem not_above_top {top : String} {rest : List String} {d : String}
    (hnd : (top :: rest).Nodup) : ¬ Above (top :: rest) top d := by
  rintro ⟨s1, s2, heq, hd⟩
  cases s1 with
  | nil => simp at hd
  | cons a s1' =>
    obtain ⟨h1, h2⟩ := List.cons.inj heq
    subst h1
    exact (List.nodup_cons.mp hnd).1 (h2 ▸ List.mem_append_right s1' (List.mem_cons_self _ _))

theorem dfsLoop_eq_nil (g : DfsIn) (n : Nat) (st : DfsState) (h : st.stack = []) :
    dfsLoop g (n + 1) st = st := by
  simp only [dfsLoop, h]

theorem dfsLoop_eq_none (g : DfsIn) (n : Nat) (st : DfsState) (top : String)
    (rest : List String) (h1 : st.stack = top :: rest)
    (h2 : alookup st.stackx top = none) :
    dfsLoop g (n + 1) st = st := by
  simp only [dfsLoop, h1, h2]

theorem dfsLoop_eq_pop (g : DfsIn) (n : Nat) (st : DfsState) (top : String)
    (rest : List String) (h1 : st.stack = top :: rest)
    (h2 : alookup st.stackx top = some []) :
    dfsLoop g (n + 1) st = dfsLoop g n { st with
      stack := rest, stackx := aerase st.stackx top,
      ord1 := st.ord1 ++ [g.ethname top], x := st.x ++ [g.ethname top],
      popped := st.popped ++ [top] } := by
  simp only [dfsLoop, h1, h2]

theorem dfsLoop_eq_skip (g : DfsIn) (n : Nat) (st : DfsState) (top : String)
    (rest : List String) (d : String) (ds : List String)
    (h1 : st.stack = top :: rest) (h2 : alookup st.stackx top = some (d :: ds))
    (h3 : (st.x.contains (g.ethname d) || g.imp d) = true) :
    dfsLoop g (n + 1) st = dfsLoop g n { st with stackx := aupdate st.stackx top ds } := by
  simp only [dfsLoop, h1, h2]
  rw [if_pos h3]

theorem dfsLoop_eq_cycle (g : DfsIn) (n : Nat) (st : DfsState) (top : String)
    (rest : List String) (d : String) (ds : List String)
    (h1 : st.stack = top :: rest) (h2 : alookup st.stackx top = some (d :: ds))
    (h3 : ¬ (st.x.contains (g.ethname d) || g.imp d) = true)
    (h4 : ahas (aupdate st.stackx top ds) d = true) :
    dfsLoop g (n + 1) st = dfsLoop g n { st with
      stackx := aupdate st.stackx top ds,
      cycles := st.cycles ++
        [(d :: (top :: rest).take ((top :: rest).indexOf d + 1)).reverse] } := by
  simp only [dfsLoop, h1, h2]
  rw [if_neg h3, if_pos h4]

theorem dfsLoop_eq_push (g : DfsIn) (n : Nat) (st : DfsState) (top : String)
    (rest : List String) (d : String) (ds : List String)
    (h1 : st.stack = top :: rest) (h2 : alookup st.stackx top = some (d :: ds))
    (h3 : ¬ (st.x.contains (g.ethname d) || g.imp d) = true)
    (h4 : ¬ ahas (aupdate st.stackx top ds) d = true) :
    dfsLoop g (n + 1) st = dfsLoop g n { st with
      stack := d :: top :: rest,
      stackx := aupdate (aupdate st.stackx top ds) d (depsGet g.deps d) } := by
  simp only [dfsLoop, h1, h2]
  rw [if_neg h3, if_neg h4]

theorem depOk_transfer (g : DfsIn) {st st' : DfsState} {k d : String}
    (hord : ∀ a ∈ st.ord1, a ∈ st'.ord1)
    (hab : ∀ k' d', Above st.stack k' d' → Above st'.stack k' d')
    (hcyc : ∀ c ∈ st.cycles, c ∈ st'.cycles) :
    DepOk g st k d → DepOk g st' k d := by
  rintro (h | h | h | ⟨c, hc, hdc, hkc⟩)
  · exact Or.inl h
  · exact Or.inr (Or.inl (hord _ h))
  · exact Or.inr (Or.inr (Or.inl (hab _ _ h)))
  · exact Or.inr (Or.inr (Or.inr ⟨c, hcyc c hc, hdc, hkc⟩))

theorem dfsInv_pop (g : DfsIn) (st : DfsState) (top : String) (rest : List String)
    (h : DfsInv g st) (h1 : st.stack = top :: rest)
    (h2 : alookup st.stackx top = some []) :
    DfsInv g { st with
      stack := rest, stackx := aerase st.stackx top,
      ord1 := st.ord1 ++ [g.ethname top], x := st.x ++ [g.ethname top],
      popped := st.popped ++ [top] } := by
  have hnd : (top :: rest).Nodup := h1 ▸ h.stack_nodup
  have htr : top ∉ rest := (List.nodup_cons.mp hnd).1
  refine ⟨?_, ?_, ?_, ?_, ?_, ?_⟩
  · dsimp only
    rw [h.x_eq]
  · exact (List.nodup_cons.mp hnd).2
  · exact List.Nodup.sublist (keys_aerase_sublist st.stackx top) h.keys_nodup
  · intro k
    dsimp only
    by_cases hk : k = top
    · subst hk
      unfold ahas
      rw [alookup_aerase_self st.stackx k h.keys_nodup]
      simp [htr]
    · unfold ahas
      rw [alookup_aerase_ne st.stackx top k (Ne.symm hk)]
      have := h.keys_stack k
      unfold ahas at this
      rw [this, h1]
      simp [hk]
  · intro k hk
    dsimp only at hk ⊢
    have hk' : k ∈ st.stack := h1 ▸ List.mem_cons_of_mem _ hk
    have hkt : k ≠ top := fun e => htr (e ▸ hk)
    obtain ⟨rem, pre, hl, hsplit, hpre⟩ := h.consumed k hk'
    refine ⟨rem, pre, ?_, hsplit, ?_⟩
    · rw [alookup_aerase_ne st.stackx top k (Ne.symm hkt)]
      exact hl
    · intro d hd
      rcases hpre d hd with himp | hordm | habove | ⟨c, hc, hdc, hkc⟩
      · exact Or.inl himp
      · exact Or.inr (Or.inl (List.mem_append_left _ hordm))
      · rcases above_pop hnd hk (h1 ▸ habove) with heq | hab
        · subst heq
          exact Or.inr (Or.inl (List.mem_append_right _ (List.mem_singleton_self _)))
        · exact Or.inr (Or.inr (Or.inl hab))
      · exact Or.inr (Or.inr (Or.inr ⟨c, hc, hdc, hkc⟩))
  · intro k hk d hd
    dsimp only at hk ⊢
    rcases List.mem_append.mp hk with hkp | hknew
    · rcases h.popped_ok k hkp d hd with himp | ⟨i, j, hij, hi, hj⟩ | ⟨c, hc, hkc⟩
      · exact Or.inl himp
      · obtain ⟨hilt, _⟩ := List.get?_eq_some.mp hi
        obtain ⟨hjlt, _⟩ := List.get?_eq_some.mp hj
        exact Or.inr (Or.inl ⟨i, j, hij,
          by rw [List.get?_append hilt]; exact hi,
          by rw [List.get?_append hjlt]; exact hj⟩)
      · exact Or.inr (Or.inr ⟨c, hc, hkc⟩)
    · have hktop : k = top := List.mem_singleton.mp hknew
      subst hktop
      obtain ⟨rem, pre, hl, hsplit, hpre⟩ := h.consumed k (h1 ▸ List.mem_cons_self _ _)
      have hrem : rem = [] := Option.some.inj ((hl.symm.trans h2))
      subst hrem
      rw [List.append_nil] at hsplit
      rcases hpre d (hsplit ▸ hd) with himp | hordm | habove | ⟨c, hc, _, hkc⟩
      · exact Or.inl himp
      · obtain ⟨i, hi⟩ := List.get?_of_mem hordm
        obtain ⟨hilt, _⟩ := List.get?_eq_some.mp hi
        exact Or.inr (Or.inl ⟨i, st.ord1.length, hilt,
          by rw [List.get?_append hilt]; exact hi,
          List.get?_concat_length _ _⟩)
      · exact absurd (h1 ▸ habove) (not_above_top hnd)
      · exact Or.inr (Or.inr ⟨c, hc, hkc⟩)

theorem dfsInv_consume (g : DfsIn) (st : DfsState) (top : String) (rest : List String)
    (d : String) (ds : List String) (cs : List (List String))
    (h : DfsInv g st) (h1 : st.stack = top :: rest)
    (h2 : alookup st.stackx top = some (d :: ds))
    (hdep : DepOk g { st with
      stackx := aupdate st.stackx top ds,
      cycles := st.cycles ++ cs } top d) :
    DfsInv g { st with
      stackx := aupdate st.stackx top ds,
      cycles := st.cycles ++ cs } := by
  have htopmem : top ∈ st.stackx.map Prod.fst :=
    (alookup_isSome_iff st.stackx top).mp (by rw [h2]; rfl)
  have hT : ∀ k' d', DepOk g st k' d' →
      DepOk g { st with
        stackx := aupdate st.stackx top ds,
        cycles := st.cycles ++ cs } k' d' := by
    intro k' d'
    exact depOk_transfer g (fun a ha => ha) (fun _ _ hab => hab)
      (fun c hc => List.mem_append_left _ hc)
  refine ⟨h.x_eq, h.stack_nodup, ?_, ?_, ?_, ?_⟩
  · dsimp only
    rw [keys_aupdate_present st.stackx top ds htopmem]
    exact h.keys_nodup
  · intro k
    dsimp only
    rw [ahas_aupdate_iff]
    rw [h.keys_stack k]
    constructor
    · rintro (he | hm)
      · exact he ▸ (h1 ▸ List.mem_cons_self _ _)
      · exact hm
    · exact fun hm => Or.inr hm
  · intro k hk
    dsimp only at hk ⊢
    by_cases hkt : k = top
    · subst hkt
      obtain ⟨rem, pre, hl, hsplit, hpre⟩ := h.consumed k (h1 ▸ List.mem_cons_self _ _)
      have hrem : rem = d :: ds := Option.some.inj (hl.symm.trans h2)
      subst hrem
      refine ⟨ds, pre ++ [d], alookup_aupdate_self _ _ _, ?_, ?_⟩
      · rw [hsplit, List.append_cons]
      · intro d' hd'
        rcases List.mem_append.mp hd' with hp | hs
        · exact hT _ _ (hpre d' hp)
        · exact (List.mem_singleton.mp hs) ▸ hdep
    · obtain ⟨rem, pre, hl, hsplit, hpre⟩ := h.consumed k hk
      refine ⟨rem, pre, ?_, hsplit, fun d' hd' => hT _ _ (hpre d' hd')⟩
      rw [alookup_aupdate_ne st.stackx top k ds (Ne.symm hkt)]
      exact hl
  · intro k hk d' hd'
    dsimp only at hk ⊢
    rcases h.popped_ok k hk d' hd' with himp | hpos | ⟨c, hc, hkc⟩
    · exact Or.inl himp
    · exact Or.inr (Or.inl hpos)
    · exact Or.inr (Or.inr ⟨c, List.mem_append_left _ hc, hkc⟩)

theorem dfsInv_push (g : DfsIn) (st : DfsState) (top : String) (rest : List String)
    (d : String) (ds : List String)
    (h : DfsInv g st) (h1 : st.stack = top :: rest)
    (h2 : alookup st.stackx top = some (d :: ds))
    (h4 : ¬ ahas (aupdate st.stackx top ds) d = true) :
    DfsInv g { st with
      stack := d :: top :: rest,
      stackx := aupdate (aupdate st.stackx top ds) d (depsGet g.deps d) } := by
  have htopmem : top ∈ st.stackx.map Prod.fst :=
    (alookup_isSome_iff st.stackx top).mp (by rw [h2]; rfl)
  have hkeys1 : (aupdate st.stackx top ds).map Prod.fst = st.stackx.map Prod.fst :=
    keys_aupdate_present st.stackx top ds htopmem
  have hd4 : ¬ (d = top ∨ ahas st.stackx d = true) :=
    fun hor => h4 ((ahas_aupdate_iff st.stackx top d ds).mpr hor)
  have hdtop : d ≠ top := fun e => hd4 (Or.inl e)
  have hdstk : d ∉ st.stack := fun hm =>
    hd4 (Or.inr ((h.keys_stack d).mpr hm))
  have hdkeys : d ∉ (aupdate st.stackx top ds).map Prod.fst := by
    intro hm
    rw [hkeys1] at hm
    exact hd4 (Or.inr ((alookup_isSome_iff st.stackx d).mpr hm))
  have hT : ∀ k' d', DepOk g st k' d' →
      DepOk g { st with
        stack := d :: top :: rest,
        stackx := aupdate (aupdate st.stackx top ds) d (depsGet g.deps d) } k' d' := by
    intro k' d'
    refine depOk_transfer g (fun a ha => ha) ?_ (fun c hc => hc)
    intro k₀ d₀ hab
    dsimp only
    exact h1 ▸ above_extend hab
  refine ⟨h.x_eq, ?_, ?_, ?_, ?_, ?_⟩
  · dsimp only
    rw [List.nodup_cons]
    exact ⟨h1 ▸ hdstk, h1 ▸ h.stack_nodup⟩
  · dsimp only
    rw [keys_aupdate_absent _ d _ hdkeys, hkeys1]
    rw [List.nodup_append]
    refine ⟨h.keys_nodup, List.nodup_singleton _, ?_⟩
    intro a ha hb
    have : a = d := List.mem_singleton.mp hb
    subst this
    exact hd4 (Or.inr ((alookup_isSome_iff st.stackx a).mpr ha))
  · intro k
    dsimp only
    rw [ahas_aupdate_iff, ahas_aupdate_iff, List.mem_cons]
    rw [h.keys_stack k, h1, List.mem_cons]
    tauto
  · intro k hk
    dsimp only at hk ⊢
    rcases List.mem_cons.mp hk with hkd | hk'
    · subst hkd
      exact ⟨depsGet g.deps k, [], alookup_aupdate_self _ _ _, rfl, by intro d' hd'; simp at hd'⟩
    · by_cases hkt : k = top
      · subst hkt
        obtain ⟨rem, pre, hl, hsplit, hpre⟩ := h.consumed k (h1 ▸ List.mem_cons_self _ _)
        have hrem : rem = d :: ds := Option.some.inj (hl.symm.trans h2)
        subst hrem
        refine ⟨ds, pre ++ [d], ?_, ?_, ?_⟩
        · rw [alookup_aupdate_ne _ d k _ hdtop]
          exact alookup_aupdate_self _ _ _
        · rw [hsplit, List.append_cons]
        · intro d' hd'
          rcases List.mem_append.mp hd' with hp | hs
          · exact hT _ _ (hpre d' hp)
          · have : d' = d := List.mem_singleton.mp hs
            subst this
            exact Or.inr (Or.inr (Or.inl ⟨[d'], rest, rfl, List.mem_singleton_self _⟩))
      · have hkstk : k ∈ st.stack := h1 ▸ hk'
        have hkd : k ≠ d := fun e => hdstk (e ▸ hkstk)
        obtain ⟨rem, pre, hl, hsplit, hpre⟩ := h.consumed k hkstk
        refine ⟨rem, pre, ?_, hsplit, fun d' hd' => hT _ _ (hpre d' hd')⟩
        rw [alookup_aupdate_ne _ d k _ (Ne.symm hkd),
          alookup_aupdate_ne st.stackx top k ds (Ne.symm hkt)]
        exact hl
  · intro k hk d' hd'
    dsimp only at hk ⊢
    exact h.popped_ok k hk d' hd'

theorem dfsLoop_inv (g : DfsIn) : ∀ (fuel : Nat) (st : DfsState),
    DfsInv g st → DfsInv g (dfsLoop g fuel st) := by
  intro fuel
  induction fuel with
  | zero => intro st h; exact h
  | succ n ih =>
    intro st h
    rcases hstack : st.stack with _ | ⟨top, rest⟩
    · rw [dfsLoop_eq_nil g n st hstack]
      exact h
    · rcases hl : alookup st.stackx top with _ | rem
      · rw [dfsLoop_eq_none g n st top rest hstack hl]
        exact h
      · rcases rem with _ | ⟨d, ds⟩
        · rw [dfsLoop_eq_pop g n st top rest hstack hl]
          exact ih _ (dfsInv_pop g st top rest h hstack hl)
        · by_cases h3 : (st.x.contains (g.ethname d) || g.imp d) = true
          · rw [dfsLoop_eq_skip g n st top rest d ds hstack hl h3]
            refine ih _ ?_
            have hdep : DepOk g { st with
                stackx := aupdate st.stackx top ds,
                cycles := st.cycles ++ [] } top d := by
              have h3' : st.x.contains (g.ethname d) = true ∨ g.imp d = true := by
                simpa using h3
              rcases h3' with hx | hi
              · refine Or.inr (Or.inl ?_)
                have hmem : g.ethname d ∈ st.x := by
                  simpa using hx
                rw [h.x_eq] at hmem
                exact hmem
              · exact Or.inl hi
            have hinv := dfsInv_consume g st top rest d ds [] h hstack hl hdep
            have heq : ({ st with
                stackx := aupdate st.stackx top ds,
                cycles := st.cycles ++ [] } : DfsState)
                = { st with stackx := aupdate st.stackx top ds } := by
              cases st
              simp
            rw [heq] at hinv
            exact hinv
          · by_cases h4 : ahas (aupdate st.stackx top ds) d = true
            · rw [dfsLoop_eq_cycle g n st top rest d ds hstack hl h3 h4]
              refine ih _ ?_
              refine dfsInv_consume g st top rest d ds
                [(d :: (top :: rest).take ((top :: rest).indexOf d + 1)).reverse]
                h hstack hl ?_
              refine Or.inr (Or.inr (Or.inr
                ⟨(d :: (top :: rest).take ((top :: rest).indexOf d + 1)).reverse,
                  ?_, ?_, ?_⟩))
              · exact List.mem_append_right _ (List.mem_singleton_self _)
              · exact List.mem_reverse.mpr (List.mem_cons_self _ _)
              · refine List.mem_reverse.mpr (List.mem_cons_of_mem _ ?_)
                rw [List.take_succ_cons]
                exact List.mem_cons_self _ _
            · rw [dfsLoop_eq_push g n st top rest d ds hstack hl h3 h4]
              exact ih _ (dfsInv_push g st top rest d ds h hstack hl h4)

theorem dfsOuter_inv (g : DfsIn) (fuel : Nat) : DfsInv g (dfsOuter g fuel) := by
  unfold dfsOuter
  have hinit : DfsInv g ⟨[], [], [], [], [], []⟩ := by
    refine ⟨rfl, List.nodup_nil, List.nodup_nil, ?_, ?_, ?_⟩
    · intro k
      simp [ahas, alookup]
    · intro k hk
      simp at hk
    · intro k hk
      simp at hk
  generalize (⟨[], [], [], [], [], []⟩ : DfsState) = st0 at hinit ⊢
  induction g.typeOrd generalizing st0 with
  | nil => exact hinit
  | cons t ts ih =>
    rw [List.foldl_cons]
    apply ih
    by_cases hx : (st0.x.contains (g.ethname t)) = true
    · rw [if_pos hx]
      exact hinit
    · rw [if_neg hx]
      apply dfsLoop_inv
      refine ⟨hinit.x_eq, List.nodup_singleton _, List.nodup_singleton _, ?_, ?_, ?_⟩
      · intro k
        dsimp only
        unfold ahas alookup
        by_cases hk : t = k
        · subst hk
          simp
        · simp [alookup, hk, Ne.symm hk]
      · intro k hk
        dsimp only at hk ⊢
        have hkt : k = t := List.mem_singleton.mp hk
        subst hkt
        refine ⟨depsGet g.deps k, [], ?_, rfl, ?_⟩
        · unfold alookup
          simp
        · intro d' hd'
          simp at hd'
      · intro k hk d' hd'
        dsimp only at hk ⊢
        exact hinit.popped_ok k hk d' hd'

theorem mem_firstOccsGo (a : String) :
    ∀ (l seen : List String), a ∈ l → a ∈ seen ∨ a ∈ firstOccsGo l seen := by
  intro l
  induction l with
  | nil => intro seen ha; simp at ha
  | cons h t ih =>
    intro seen ha
    by_cases hs : seen.contains h
    · rcases List.mem_cons.mp ha with he | ht
      · subst he
        exact Or.inl (by simpa using hs)
      · rcases ih seen ht with h1 | h1
        · exact Or.inl h1
        · exact Or.inr (by rw [firstOccsGo, if_pos hs]; exact h1)
    · rcases List.mem_cons.mp ha with he | ht
      · subst he
        exact Or.inr (by rw [firstOccsGo, if_neg hs]; exact List.mem_cons_self _ _)
      · rcases ih (h :: seen) ht with h1 | h1
        · rcases List.mem_cons.mp h1 with he | hsn
          · subst he
            exact Or.inr (by rw [firstOccsGo, if_neg hs]; exact List.mem_cons_self _ _)
          · exact Or.inl hsn
        · exact Or.inr (by rw [firstOccsGo, if_neg hs]; exact List.mem_cons_of_mem _ h1)

theorem mem_firstOccs (a : String) (l : List String) (h : a ∈ l) : a ∈ firstOccs l := by
  rcases mem_firstOccsGo a l [] h with h1 | h1
  · simp at h1
  · exact h1

theorem fieldFnsFor_shape (hfFields : List (String × String)) (t : String) :
    ∀ it ∈ fieldFnsFor hfFields t, ∃ nm, it = OutItem.fieldFn nm := by
  intro it hit
  unfold fieldFnsFor at hit
  obtain ⟨p, _, hp⟩ := List.mem_map.mp hit
  exact ⟨p.1, hp.symm⟩

theorem cycBlock_shape (new : Bool) (cycles : List (List String))
    (ethnameOf : String → String) (hfFields : List (String × String)) :
    ∀ it ∈ cycBlockItems new cycles ethnameOf hfFields,
      (∃ cs, it = OutItem.cyc cs) ∨ (∃ nm, it = OutItem.fwd nm)
        ∨ (∃ nm, it = OutItem.fieldFn nm) := by
  intro it hit
  unfold cycBlockItems at hit
  obtain ⟨h, _, hin⟩ := List.mem_flatMap.mp hit
  rcases List.mem_cons.mp hin with he | hin
  · exact Or.inl ⟨_, he⟩
  · rcases List.mem_cons.mp hin with he | hin
    · exact Or.inr (Or.inl ⟨_, he⟩)
    · rcases hbn : new with _ | _
      · rw [hbn] at hin
        simp only [Bool.not_false, if_pos] at hin
        obtain ⟨nm, hnm⟩ := fieldFnsFor_shape hfFields h it hin
        exact Or.inr (Or.inr ⟨nm, hnm⟩)
      · rw [hbn] at hin
        simp at hin

theorem impFld_shape (new : Bool) (info : String → FnEmitInfo)
    (hfFields : List (String × String)) :
    ∀ it ∈ impFldItems new info hfFields, ∃ nm, it = OutItem.fieldFn nm := by
  intro it hit
  unfold impFldItems at hit
  rcases hbn : new with _ | _
  · rw [hbn] at hit
    simp only [Bool.not_false, if_pos] at hit
    obtain ⟨p, _, hp⟩ := List.mem_map.mp hit
    exact ⟨p.1, hp.symm⟩
  · rw [hbn] at hit
    simp at hit

theorem mainItemsFor_shape (new : Bool) (heads : List String)
    (info : String → FnEmitInfo) (hfFields : List (String × String)) (t : String) :
    ∀ it ∈ mainItemsFor new heads info hfFields t,
      (∃ nm, it = OutItem.valsExtern nm) ∨ (∃ nm, it = OutItem.valsTbl nm)
        ∨ (∃ nm, it = OutItem.fnHdrDecl nm) ∨ (∃ nm, it = OutItem.defn nm)
        ∨ (∃ nm, it = OutItem.fieldFn nm) := by
  intro it hit
  unfold mainItemsFor at hit
  by_cases hi : (info t).isImport = true
  · rw [if_pos hi] at hit
    simp at hit
  · rw [if_neg hi] at hit
    rcases List.mem_append.mp hit with h1 | h1
    · rcases List.mem_append.mp h1 with h2 | h2
      · by_cases hv : (info t).hasVals = true
        · rw [if_pos hv] at h2
          by_cases hn2 : (info t).noEmit &&& 0x02 ≠ 0
          · rw [if_pos hn2] at h2; simp at h2
          · rw [if_neg hn2] at h2
            by_cases hu2 : (info t).userDef &&& 0x02 ≠ 0
            · rw [if_pos hu2] at h2
              exact Or.inl ⟨t, (List.mem_singleton.mp h2)⟩
            · rw [if_neg hu2] at h2
              exact Or.inr (Or.inl ⟨t, (List.mem_singleton.mp h2)⟩)
        · rw [if_neg hv] at h2; simp at h2
      · by_cases hn1 : (info t).noEmit &&& 0x01 ≠ 0
        · rw [if_pos hn1] at h2; simp at h2
        · rw [if_neg hn1] at h2
          by_cases hu1 : (info t).userDef &&& 0x01 ≠ 0
          · rw [if_pos hu1] at h2
            exact Or.inr (Or.inr (Or.inl ⟨t, (List.mem_singleton.mp h2)⟩))
          · rw [if_neg hu1] at h2
            exact Or.inr (Or.inr (Or.inr (Or.inl ⟨t, (List.mem_singleton.mp h2)⟩)))
    · by_cases hb : (!new && !heads.contains t) = true
      · rw [if_pos hb] at h1
        obtain ⟨nm, hnm⟩ := fieldFnsFor_shape hfFields t it h1
        exact Or.inr (Or.inr (Or.inr (Or.inr ⟨nm, hnm⟩)))
      · rw [if_neg hb] at h1
        simp at h1

theorem defnNames_append (l1 l2 : List OutItem) :
    defnNames (l1 ++ l2) = defnNames l1 ++ defnNames l2 := by
  unfold defnNames
  exact List.filterMap_append _ _ _

theorem defnNames_eq_nil (l : List OutItem)
    (h : ∀ it ∈ l, ∀ nm, it ≠ OutItem.defn nm) : defnNames l = [] := by
  induction l with
  | nil => rfl
  | cons it t ih =>
    have ht : defnNames t = [] := ih (fun it' hit' => h it' (List.mem_cons_of_mem _ hit'))
    cases it with
    | defn nm => exact absurd rfl (h _ (List.mem_cons_self _ _) nm)
    | cyc cs => simpa [defnNames, List.filterMap_cons] using ht
    | fwd nm => simpa [defnNames, List.filterMap_cons] using ht
    | fieldFn nm => simpa [defnNames, List.filterMap_cons] using ht
    | valsTbl nm => simpa [defnNames, List.filterMap_cons] using ht
    | valsExtern nm => simpa [defnNames, List.filterMap_cons] using ht
    | fnHdrDecl nm => simpa [defnNames, List.filterMap_cons] using ht

theorem defnNames_mainItemsFor (new : Bool) (heads : List String)
    (info : String → FnEmitInfo) (hfFields : List (String × String)) (t : String) :
    defnNames (mainItemsFor new heads info hfFields t)
      = if emitsDefn info t = true then [t] else [] := by
  unfold mainItemsFor emitsDefn
  by_cases hi : (info t).isImport = true
  · simp [hi, defnNames]
  · have hvals : defnNames (if (info t).hasVals = true then
        (if (info t).noEmit &&& 0x02 ≠ 0 then []
         else if (info t).userDef &&& 0x02 ≠ 0 then [OutItem.valsExtern t]
         else [OutItem.valsTbl t])
       else []) = [] := by
      refine defnNames_eq_nil _ ?_
      intro it hit nm
      split at hit
      · split at hit
        · simp at hit
        · split at hit
          · rw [List.mem_singleton.mp hit]; intro hcon; cases hcon
          · rw [List.mem_singleton.mp hit]; intro hcon; cases hcon
      · simp at hit
    have hflds : defnNames (if !new && !heads.contains t then
        fieldFnsFor hfFields t else []) = [] := by
      refine defnNames_eq_nil _ ?_
      intro it hit nm
      split at hit
      · obtain ⟨nm', hnm'⟩ := fieldFnsFor_shape hfFields t it hit
        rw [hnm']; intro hcon; cases hcon
      · simp at hit
    rw [if_neg hi, defnNames_append, defnNames_append, hvals, hflds]
    simp only [List.nil_append, List.append_nil, Bool.not_eq_true] at *
    rw [hi]
    have hne : (info t).noEmit &&& 0x01 = (info t).noEmit % 2 := Nat.and_one_is_mod _
    have hue : (info t).userDef &&& 0x01 = (info t).userDef % 2 := Nat.and_one_is_mod _
    by_cases hn1 : (info t).noEmit &&& 0x01 = 0
    · rw [if_neg (by simpa using hn1)]
      by_cases hu1 : (info t).userDef &&& 0x01 = 0
      · rw [if_neg (by simpa using hu1)]
        simp [defnNames, hn1, hu1]
      · rw [if_pos (by simpa using hu1)]
        simp [defnNames, hn1, hu1]
        rw [hue] at hu1
        omega
    · rw [if_pos (by simpa using hn1)]
      simp [defnNames, hn1]
      rw [hne] at hn1
      omega

theorem defnNames_flatMap_main (new : Bool) (heads : List String)
    (info : String → FnEmitInfo) (hfFields : List (String × String)) :
    ∀ ord1 : List String,
      defnNames (ord1.flatMap (mainItemsFor new heads info hfFields))
        = ord1.filter (emitsDefn info) := by
  intro ord1
  induction ord1 with
  | nil => rfl
  | cons t ts ih =>
    rw [List.flatMap_cons, defnNames_append, ih,
      defnNames_mainItemsFor, List.filter_cons]
    by_cases he : emitsDefn info t = true
    · rw [if_pos he, if_pos he]
      rfl
    · rw [if_neg he, if_neg he]
      rfl

theorem defnNames_ethOutputItems (new : Bool) (ord1 : List String)
    (cycles : List (List String)) (ethnameOf : String → String)
    (info : String → FnEmitInfo) (hfFields : List (String × String)) :
    defnNames (ethOutputItems new ord1 cycles ethnameOf info hfFields)
      = ord1.filter (emitsDefn info) := by
  unfold ethOutputItems
  rw [defnNames_append, defnNames_append]
  rw [defnNames_eq_nil _ (fun it hit nm => by
    rcases cycBlock_shape new cycles ethnameOf hfFields it hit with ⟨cs, he⟩ | ⟨n, he⟩ | ⟨n, he⟩ <;>
      (rw [he]; intro hcon; cases hcon))]
  rw [defnNames_eq_nil _ (fun it hit nm => by
    obtain ⟨n, he⟩ := impFld_shape new info hfFields it hit
    rw [he]; intro hcon; cases hcon)]
  rw [defnNames_flatMap_main]
  rfl

theorem fwd_mem_cycBlock (new : Bool) (cycles : List (List String))
    (ethnameOf : String → String) (hfFields : List (String × String))
    (c : List String) (hc : c ∈ cycles) :
    OutItem.fwd (ethnameOf (c.headD "")) ∈ cycBlockItems new cycles ethnameOf hfFields := by
  unfold cycBlockItems
  refine List.mem_flatMap.mpr ⟨ethnameOf (c.headD ""), ?_, ?_⟩
  · exact mem_firstOccs _ _ (List.mem_map.mpr ⟨c, hc, rfl⟩)
  · exact List.mem_cons_of_mem _ (List.mem_cons_self _ _)

/-! ### Header-field and type-registry consistency lemmas (C3) -/

theorem hfResolveType_ethHf (st : HfState) (f : FieldIn) :
    (hfResolveType st f).2.ethHf = st.ethHf := by
  unfold hfResolveType
  rcases alookup st.typeTbl f.typ <;> rfl

theorem hfResolveType_ethHfOrd (st : HfState) (f : FieldIn) :
    (hfResolveType st f).2.ethHfOrd = st.ethHfOrd := by
  unfold hfResolveType
  rcases alookup st.typeTbl f.typ <;> rfl

theorem hfResolveType_ethHfDupl (st : HfState) (f : FieldIn) :
    (hfResolveType st f).2.ethHfDupl = st.ethHfDupl := by
  unfold hfResolveType
  rcases alookup st.typeTbl f.typ <;> rfl

theorem hfResolveType_fieldResolved (st : HfState) (f : FieldIn) :
    (hfResolveType st f).2.fieldResolved = st.fieldResolved := by
  unfold hfResolveType
  rcases alookup st.typeTbl f.typ <;> rfl

theorem namesOk_share (st : HfState) (f : FieldIn) (nm nmS em : String) (cur : HfEntry)
    (hok : HfNamesOk st)
    (hcur : alookup st.ethHf nmS = some cur)
    (hcm : cur.ethtype ++ cur.modified = em) :
    HfNamesOk { st with
      ethHf := aupdate st.ethHf nmS { cur with ref := cur.ref ++ [f.key] },
      fieldResolved := st.fieldResolved ++ [(f.key, nm, nmS, em)] } := by
  obtain ⟨hkeys, hres, hdup⟩ := hok
  have hhasS : ahas st.ethHf nmS = true := by
    unfold ahas
    rw [hcur]
    rfl
  refine ⟨?_, ?_, ?_⟩
  · intro k
    dsimp only
    rw [ahas_aupdate_iff]
    rw [hkeys k]
    constructor
    · rintro (he | hm)
      · exact he ▸ (hkeys nmS).mp hhasS
      · exact hm
    · exact fun hm => Or.inr hm
  · intro p hp
    dsimp only at hp ⊢
    rcases List.mem_append.mp hp with hold | hnew
    · obtain ⟨e, hl, hc⟩ := hres p hold
      by_cases hn : p.2.2.1 = nmS
      · rw [hn] at hl
        have he : e = cur := Option.some.inj (hl.symm.trans hcur)
        subst he
        refine ⟨{ e with ref := e.ref ++ [f.key] }, ?_, hc⟩
        rw [hn]
        exact alookup_aupdate_self _ _ _
      · exact ⟨e, by rw [alookup_aupdate_ne _ nmS _ _ (Ne.symm hn)]; exact hl, hc⟩
    · have hp' : p = (f.key, nm, nmS, em) := List.mem_singleton.mp hnew
      subst hp'
      exact ⟨{ cur with ref := cur.ref ++ [f.key] }, alookup_aupdate_self _ _ _, hcm⟩
  · intro nm' dmap hdm cm nme hbind
    dsimp only at hdm ⊢
    obtain ⟨e, hl, hc⟩ := hdup nm' dmap hdm cm nme hbind
    by_cases hn : nme = nmS
    · rw [hn] at hl
      have he : e = cur := Option.some.inj (hl.symm.trans hcur)
      subst he
      refine ⟨{ e with ref := e.ref ++ [f.key] }, ?_, hc⟩
      rw [hn]
      exact alookup_aupdate_self _ _ _
    · exact ⟨e, by rw [alookup_aupdate_ne _ nmS _ _ (Ne.symm hn)]; exact hl, hc⟩

theorem namesOk_create (st : HfState) (f : FieldIn) (proto nm nmF ethtype em : String)
    (dupl' : List (String × List (String × String)))
    (hok : HfNamesOk st)
    (hem : em = ethtype ++ f.modified)
    (hfresh : alookup st.ethHf nmF = none)
    (hdupl : ∀ nm' dmap, alookup dupl' nm' = some dmap →
      ∀ cm nme, alookup dmap cm = some nme →
        (nme = nmF ∧ cm = em) ∨
        (∃ e, alookup st.ethHf nme = some e ∧ e.ethtype ++ e.modified = cm)) :
    HfNamesOk { st with
      ethHfDupl := dupl',
      ethHfOrd := st.ethHfOrd ++ [nmF],
      ethHf := aupdate st.ethHf nmF
        ⟨"hf_" ++ proto ++ "_" ++ nmF, ethtype, f.modified, [f.key]⟩,
      fieldResolved := st.fieldResolved ++ [(f.key, nm, nmF, em)] } := by
  obtain ⟨hkeys, hres, hdup⟩ := hok
  refine ⟨?_, ?_, ?_⟩
  · intro k
    dsimp only
    rw [ahas_aupdate_iff, hkeys k, List.mem_append, List.mem_singleton]
    tauto
  · intro p hp
    dsimp only at hp ⊢
    rcases List.mem_append.mp hp with hold | hnew
    · obtain ⟨e, hl, hc⟩ := hres p hold
      have hn : p.2.2.1 ≠ nmF := by
        intro he
        rw [he, hfresh] at hl
        cases hl
      exact ⟨e, by rw [alookup_aupdate_ne _ nmF _ _ (Ne.symm hn)]; exact hl, hc⟩
    · have hp' : p = (f.key, nm, nmF, em) := List.mem_singleton.mp hnew
      subst hp'
      exact ⟨_, alookup_aupdate_self _ _ _, hem.symm⟩
  · intro nm' dmap hdm cm nme hbind
    dsimp only at hdm ⊢
    rcases hdupl nm' dmap hdm cm nme hbind with ⟨hn, hcm⟩ | ⟨e, hl, hc⟩
    · subst hn
      subst hcm
      exact ⟨_, alookup_aupdate_self _ _ _, hem.symm⟩
    · have hn : nme ≠ nmF := by
        intro he
        rw [he, hfresh] at hl
        cases hl
      exact ⟨e, by rw [alookup_aupdate_ne _ nmF _ _ (Ne.symm hn)]; exact hl, hc⟩

theorem hfDecision_spec (st : HfState) (nm ethtype em : String)
    (hok : HfNamesOk st) (hem2 : em = ethtype) :
    (∃ nmS cur, hfDecision st nm ethtype em = .inr nmS
        ∧ alookup st.ethHf nmS = some cur ∧ cur.ethtype ++ cur.modified = em)
    ∨ (∃ nmF dupl', hfDecision st nm ethtype em = .inl (some (nmF, dupl'))
        ∧ ∀ nm' dmap, alookup dupl' nm' = some dmap →
            ∀ cm nme, alookup dmap cm = some nme →
              (nme = nmF ∧ cm = em) ∨
              (∃ e, alookup st.ethHf nme = some e ∧ e.ethtype ++ e.modified = cm)) := by
  unfold hfDecision
  by_cases hhas : ahas st.ethHf nm = true
  · rw [if_pos hhas]
    rcases hd : alookup st.ethHfDupl nm with _ | dmap
    · rcases hl : alookup st.ethHf nm with _ | cur
      · exfalso
        unfold ahas at hhas
        rw [hl] at hhas
        cases hhas
      · dsimp only
        by_cases hceq : cur.ethtype ++ cur.modified = em
        · rw [if_pos hceq]
          exact Or.inl ⟨nm, cur, rfl, hl, hceq⟩
        · rw [if_neg hceq]
          refine Or.inr ⟨nm ++ "1", _, rfl, ?_⟩
          intro nm' dmap' hdm' cm nme hbind
          by_cases hnm' : nm = nm'
          · subst hnm'
            rw [alookup_aupdate_self] at hdm'
            have hdm'' := Option.some.inj hdm'
            subst hdm''
            rw [show aupdate (aupdate ([] : List (String × String))
                  (cur.ethtype ++ cur.modified) nm) em (nm ++ "1")
                = [(cur.ethtype ++ cur.modified, nm), (em, nm ++ "1")] by
              simp [aupdate, hceq]] at hbind
            by_cases hc1 : cur.ethtype ++ cur.modified = cm
            · rw [show alookup [(cur.ethtype ++ cur.modified, nm), (em, nm ++ "1")] cm
                  = some nm by simp [alookup, hc1]] at hbind
              have := Option.some.inj hbind
              subst this
              exact Or.inr ⟨cur, hl, hc1⟩
            · by_cases hc2 : em = cm
              · rw [show alookup [(cur.ethtype ++ cur.modified, nm), (em, nm ++ "1")] cm
                    = some (nm ++ "1") by simp [alookup, hc1, hc2]] at hbind
                have := Option.some.inj hbind
                subst this
                exact Or.inl ⟨rfl, hc2.symm⟩
              · rw [show alookup [(cur.ethtype ++ cur.modified, nm), (em, nm ++ "1")] cm
                    = none by simp [alookup, hc1, hc2]] at hbind
                cases hbind
          · rw [alookup_aupdate_ne _ _ _ _ hnm'] at hdm'
            exact Or.inr (hok.2.2 nm' dmap' hdm' cm nme hbind)
    · dsimp only
      rcases hb : alookup dmap em with _ | nmS
      · refine Or.inr ⟨nm ++ toString dmap.length, _, rfl, ?_⟩
        intro nm' dmap' hdm' cm nme hbind
        by_cases hnm' : nm = nm'
        · subst hnm'
          rw [alookup_aupdate_self] at hdm'
          have hdm'' := Option.some.inj hdm'
          subst hdm''
          by_cases hc1 : ethtype = cm
          · subst hc1
            rw [alookup_aupdate_self] at hbind
            have := Option.some.inj hbind
            subst this
            exact Or.inl ⟨rfl, hem2.symm⟩
          · rw [alookup_aupdate_ne _ _ _ _ hc1] at hbind
            exact Or.inr (hok.2.2 nm dmap hd cm nme hbind)
        · rw [alookup_aupdate_ne _ _ _ _ hnm'] at hdm'
          exact Or.inr (hok.2.2 nm' dmap' hdm' cm nme hbind)
      · obtain ⟨e, hl, hc⟩ := hok.2.2 nm dmap hd em nmS hb
        exact Or.inl ⟨nmS, e, rfl, hl, hc⟩
  · rw [if_neg hhas]
    refine Or.inr ⟨nm, st.ethHfDupl, rfl, ?_⟩
    intro nm' dmap hdm cm nme hbind
    exact Or.inr (hok.2.2 nm' dmap hdm cm nme hbind)

theorem hfAssignName_eq_share (rename : List (String × String)) (proto : String)
    (st : HfState) (f : FieldIn) (ethtype nmS : String) (cur : HfEntry)
    (h : hfDecision st (hfBaseName rename f) ethtype (ethtype ++ f.modified) = .inr nmS)
    (hcur : alookup st.ethHf nmS = some cur) :
    hfAssignName rename proto st f ethtype = { st with
      ethHf := aupdate st.ethHf nmS { cur with ref := cur.ref ++ [f.key] },
      fieldResolved := st.fieldResolved
        ++ [(f.key, hfBaseName rename f, nmS, ethtype ++ f.modified)] } := by
  unfold hfAssignName
  dsimp only
  rw [h]
  dsimp only
  rw [hcur]

theorem hfAssignName_eq_create (rename : List (String × String)) (proto : String)
    (st : HfState) (f : FieldIn) (ethtype nmF : String)
    (dupl' : List (String × List (String × String)))
    (h : hfDecision st (hfBaseName rename f) ethtype (ethtype ++ f.modified)
      = .inl (some (nmF, dupl'))) :
    hfAssignName rename proto st f ethtype = { st with
      ethHfDupl := dupl',
      ethHfOrd := st.ethHfOrd ++ [nmF],
      ethHf := aupdate st.ethHf nmF
        ⟨"hf_" ++ proto ++ "_" ++ nmF, ethtype, f.modified, [f.key]⟩,
      fieldResolved := st.fieldResolved
        ++ [(f.key, hfBaseName rename f, nmF, ethtype ++ f.modified)] } := by
  unfold hfAssignName
  dsimp only
  rw [h]

theorem string_append_empty (s : String) : s ++ "" = s := by
  cases s with
  | mk data =>
    show String.mk (data ++ []) = String.mk data
    rw [List.append_nil]

theorem hfAssignName_namesOk (rename : List (String × String)) (proto : String)
    (st : HfState) (f : FieldIn) (ethtype : String)
    (hmod : f.modified = "")
    (hok : HfNamesOk st)
    (hnd : (hfAssignName rename proto st f ethtype).ethHfOrd.Nodup) :
    HfNamesOk (hfAssignName rename proto st f ethtype) := by
  have hem2 : ethtype ++ f.modified = ethtype := by
    rw [hmod]
    exact string_append_empty ethtype
  rcases hfDecision_spec st (hfBaseName rename f) ethtype (ethtype ++ f.modified) hok hem2
    with ⟨nmS, cur, hd, hcur, hcm⟩ | ⟨nmF, dupl', hd, hdupl⟩
  · rw [hfAssignName_eq_share rename proto st f ethtype nmS cur hd hcur]
    exact namesOk_share st f (hfBaseName rename f) nmS (ethtype ++ f.modified) cur
      hok hcur hcm
  · rw [hfAssignName_eq_create rename proto st f ethtype nmF dupl' hd] at hnd ⊢
    dsimp only at hnd
    have hfreshOrd : nmF ∉ st.ethHfOrd := by
      intro hmem
      exact (List.nodup_append.mp hnd).2.2 hmem (List.mem_singleton_self _)
    have hfresh : alookup st.ethHf nmF = none := by
      have hna : ¬ ahas st.ethHf nmF = true := fun hh => hfreshOrd ((hok.1 nmF).mp hh)
      unfold ahas at hna
      exact Option.not_isSome_iff_eq_none.mp (by simpa using hna)
    exact namesOk_create st f proto (hfBaseName rename f) nmF ethtype
      (ethtype ++ f.modified) dupl' hok rfl hfresh hdupl

theorem hfStep_namesOk (rename : List (String × String)) (proto : String)
    (st : HfState) (f : FieldIn)
    (hmod : f.modified = "")
    (hok : HfNamesOk st)
    (hnd : (hfStep rename proto st f).ethHfOrd.Nodup) :
    HfNamesOk (hfStep rename proto st f) := by
  have hok' : HfNamesOk (hfResolveType st f).2 := by
    unfold HfNamesOk
    rw [hfResolveType_ethHf, hfResolveType_ethHfOrd, hfResolveType_ethHfDupl,
      hfResolveType_fieldResolved]
    exact hok
  exact hfAssignName_namesOk rename proto (hfResolveType st f).2 f
    (hfResolveType st f).1 hmod hok' hnd

theorem hfAssignName_ord_mono (rename : List (String × String)) (proto : String)
    (st : HfState) (f : FieldIn) (e : String) :
    ∃ tail, (hfAssignName rename proto st f e).ethHfOrd = st.ethHfOrd ++ tail := by
  unfold hfAssignName
  dsimp only
  rcases hdec : hfDecision st (hfBaseName rename f) e (e ++ f.modified) with opt | nmS
  · rcases opt with _ | ⟨nmF, dupl'⟩
    · exact ⟨[], (List.append_nil _).symm⟩
    · exact ⟨[nmF], rfl⟩
  · exact ⟨[], (List.append_nil _).symm⟩

theorem hfStep_ord_mono (rename : List (String × String)) (proto : String)
    (st : HfState) (f : FieldIn) :
    ∃ tail, (hfStep rename proto st f).ethHfOrd = st.ethHfOrd ++ tail := by
  unfold hfStep
  obtain ⟨tail, ht⟩ := hfAssignName_ord_mono rename proto (hfResolveType st f).2 f
    (hfResolveType st f).1
  rw [ht, hfResolveType_ethHfOrd]
  exact ⟨tail, rfl⟩

theorem hfLoop_ord_mono (rename : List (String × String)) (proto : String) :
    ∀ (fs : List FieldIn) (st : HfState),
      ∃ tail, (hfLoop rename proto fs st).ethHfOrd = st.ethHfOrd ++ tail := by
  intro fs
  induction fs with
  | nil => exact fun st => ⟨[], (List.append_nil _).symm⟩
  | cons f fs' ih =>
    intro st
    show ∃ tail, (hfLoop rename proto fs' (hfStep rename proto st f)).ethHfOrd = _
    obtain ⟨t2, ht2⟩ := ih (hfStep rename proto st f)
    obtain ⟨t1, ht1⟩ := hfStep_ord_mono rename proto st f
    exact ⟨t1 ++ t2, by rw [ht2, ht1, List.append_assoc]⟩

theorem hfLoop_namesOk (rename : List (String × String)) (proto : String) :
    ∀ (fs : List FieldIn) (st : HfState),
      (∀ f ∈ fs, f.modified = "") → HfNamesOk st →
      (hfLoop rename proto fs st).ethHfOrd.Nodup →
      HfNamesOk (hfLoop rename proto fs st) := by
  intro fs
  induction fs with
  | nil => exact fun st _ hok _ => hok
  | cons f fs' ih =>
    intro st hmod hok hnd
    show HfNamesOk (hfLoop rename proto fs' (hfStep rename proto st f))
    have hnd1 : (hfStep rename proto st f).ethHfOrd.Nodup := by
      obtain ⟨tail, ht⟩ := hfLoop_ord_mono rename proto fs' (hfStep rename proto st f)
      have hnd' : (hfLoop rename proto fs' (hfStep rename proto st f)).ethHfOrd.Nodup := hnd
      rw [ht] at hnd'
      exact (List.nodup_append.mp hnd').1
    exact ih (hfStep rename proto st f)
      (fun g hg => hmod g (List.mem_cons_of_mem _ hg))
      (hfStep_namesOk rename proto st f (hmod f (List.mem_cons_self _ _)) hok hnd1)
      hnd

theorem collisionFree_of_namesOk (st : HfState) (hok : HfNamesOk st) :
    hfCollisionFree st := by
  intro p hp q hq hname _
  obtain ⟨e1, hl1, hc1⟩ := hok.2.1 p hp
  obtain ⟨e2, hl2, hc2⟩ := hok.2.1 q hq
  rw [hname] at hl1
  have he : e1 = e2 := Option.some.inj (hl1.symm.trans hl2)
  subst he
  rw [← hc1, ← hc2]

theorem typeNamesOk_create (proto : String) (st : TypeLoopState) (t : TypeRegIn)
    (nm : String) (exp : List String)
    (hhas : ¬ ahas st.ethType nm = true)
    (hInv : TypeNamesOk st) :
    TypeNamesOk { st with
      ethTypeOrd := st.ethTypeOrd ++ [nm],
      typeEthname := aupdate st.typeEthname t.key nm,
      ethExportOrd := exp,
      ethType := aupdate
        (aupdate st.ethType nm (.defined proto 0 0x03 0x03 t.valTag [t.key])) nm
        (.defined proto (0 ||| t.exportFlag) (0x03 &&& t.userDef) (0x03 &&& t.noEmit)
          t.valTag [t.key]) } := by
  obtain ⟨h1, h2, h3⟩ := hInv
  refine ⟨?_, ?_, ?_⟩
  · intro k nm₀ hlk
    dsimp only at hlk ⊢
    by_cases hk : t.key = k
    · subst hk
      rw [alookup_aupdate_self] at hlk
      have hnm₀ := Option.some.inj hlk
      subst hnm₀
      exact ⟨_, alookup_aupdate_self _ _ _, Or.inr (List.mem_singleton_self _)⟩
    · rw [alookup_aupdate_ne _ _ _ _ hk] at hlk
      obtain ⟨e₀, hl₀, hp₀⟩ := h1 k nm₀ hlk
      by_cases hnm : nm₀ = nm
      · exfalso
        subst hnm
        exact hhas (by unfold ahas; rw [hl₀]; rfl)
      · refine ⟨e₀, ?_, hp₀⟩
        rw [alookup_aupdate_ne _ _ _ _ (Ne.symm hnm),
          alookup_aupdate_ne _ _ _ _ (Ne.symm hnm)]
        exact hl₀
  · dsimp only
    rw [List.nodup_append]
    refine ⟨h2, List.nodup_singleton _, ?_⟩
    intro a ha hb
    have hab : a = nm := List.mem_singleton.mp hb
    subst hab
    exact hhas (h3 a ha)
  · intro nm' hmem
    dsimp only at hmem ⊢
    rw [ahas_aupdate_iff, ahas_aupdate_iff]
    rcases List.mem_append.mp hmem with hold | hnew
    · exact Or.inr (Or.inr (h3 nm' hold))
    · exact Or.inl (List.mem_singleton.mp hnew)

theorem typeNamesOk_shareDefined (st : TypeLoopState) (t : TypeRegIn) (nm : String)
    (p : String) (x u n : Nat) (v : String) (r : List String) (exp : List String)
    (hl : alookup st.ethType nm = some (.defined p x u n v r))
    (hInv : TypeNamesOk st) :
    TypeNamesOk { st with
      typeEthname := aupdate st.typeEthname t.key nm,
      ethExportOrd := exp,
      ethType := aupdate
        (aupdate st.ethType nm (.defined p x u n v (r ++ [t.key]))) nm
        (.defined p (x ||| t.exportFlag) (u &&& t.userDef) (n &&& t.noEmit) v
          (r ++ [t.key])) } := by
  obtain ⟨h1, h2, h3⟩ := hInv
  refine ⟨?_, h2, ?_⟩
  · intro k nm₀ hlk
    dsimp only at hlk ⊢
    by_cases hk : t.key = k
    · subst hk
      rw [alookup_aupdate_self] at hlk
      have hnm₀ := Option.some.inj hlk
      subst hnm₀
      exact ⟨_, alookup_aupdate_self _ _ _,
        Or.inr (List.mem_append_right _ (List.mem_singleton_self _))⟩
    · rw [alookup_aupdate_ne _ _ _ _ hk] at hlk
      obtain ⟨e₀, hl₀, hp₀⟩ := h1 k nm₀ hlk
      by_cases hnm : nm₀ = nm
      · subst hnm
        have he₀ : e₀ = .defined p x u n v r := Option.some.inj (hl₀.symm.trans hl)
        subst he₀
        rcases hp₀ with himp | href
        · cases himp
        · exact ⟨_, alookup_aupdate_self _ _ _,
            Or.inr (List.mem_append_left _ href)⟩
      · refine ⟨e₀, ?_, hp₀⟩
        rw [alookup_aupdate_ne _ _ _ _ (Ne.symm hnm),
          alookup_aupdate_ne _ _ _ _ (Ne.symm hnm)]
        exact hl₀
  · intro nm' hmem
    dsimp only at hmem ⊢
    rw [ahas_aupdate_iff, ahas_aupdate_iff]
    exact Or.inr (Or.inr (h3 nm' hmem))

theorem typeStepTail_inv (proto : String) (st : TypeLoopState) (t : TypeRegIn)
    (nm : String) (st' : TypeLoopState)
    (h : typeStepTail proto st t nm = .ok st')
    (hInv : TypeNamesOk st) : TypeNamesOk st' := by
  unfold typeStepTail at h
  by_cases hhas : ahas st.ethType nm = true
  · rw [if_pos hhas] at h
    rcases hl : alookup st.ethType nm with _ | e
    · exfalso
      unfold ahas at hhas
      rw [hl] at hhas
      cases hhas
    · rw [hl] at h
      cases e with
      | imported m p r =>
        dsimp only at h
        rw [pure_bind] at h
        dsimp only at h
        rw [show alookup
            (aupdate st.ethType nm (EthTypeEntry.imported m p (r ++ [t.key]))) nm
            = some (.imported m p (r ++ [t.key])) from alookup_aupdate_self _ _ _] at h
        cases h
      | defined p x u n v r =>
        dsimp only at h
        rw [pure_bind] at h
        dsimp only at h
        rw [show alookup
            (aupdate st.ethType nm (EthTypeEntry.defined p x u n v (r ++ [t.key]))) nm
            = some (.defined p x u n v (r ++ [t.key])) from alookup_aupdate_self _ _ _] at h
        dsimp only at h
        split at h
        · cases h
          exact typeNamesOk_shareDefined st t nm p x u n v r _ hl hInv
        · cases h
          exact typeNamesOk_shareDefined st t nm p x u n v r _ hl hInv
  · rw [if_neg hhas] at h
    rw [pure_bind] at h
    dsimp only at h
    rw [show alookup
        (aupdate st.ethType nm (EthTypeEntry.defined proto 0 0x03 0x03 t.valTag [t.key])) nm
        = some (.defined proto 0 0x03 0x03 t.valTag [t.key])
      from alookup_aupdate_self _ _ _] at h
    dsimp only at h
    split at h
    · cases h
      exact typeNamesOk_create proto st t nm _ hhas hInv
    · cases h
      exact typeNamesOk_create proto st t nm _ hhas hInv

theorem typeStep_inv (proto : String) (st : TypeLoopState) (t : TypeRegIn)
    (st' : TypeLoopState)
    (h : typeStep proto st t = .ok st')
    (hInv : TypeNamesOk st) : TypeNamesOk st' := by
  unfold typeStep at h
  rcases hc : typeNameChoice st t with err | ⟨nm, dupl⟩
  · rw [hc] at h
    cases h
  · rw [hc] at h
    have hInv' : TypeNamesOk { st with ethTypeDupl := dupl } := hInv
    exact typeStepTail_inv proto { st with ethTypeDupl := dupl } t nm st' h hInv'

theorem typeLoop_inv (proto : String) :
    ∀ (ts : List TypeRegIn) (st st' : TypeLoopState),
      typeLoop proto ts st = .ok st' → TypeNamesOk st → TypeNamesOk st' := by
  intro ts
  induction ts with
  | nil =>
    intro st st' h hInv
    cases h
    exact hInv
  | cons t ts' ih =>
    intro st st' h hInv
    unfold typeLoop at h
    rw [List.foldlM_cons] at h
    rcases hs : typeStep proto st t with err | st₁
    · rw [hs] at h
      cases h
    · rw [hs] at h
      exact ih st₁ st' h (typeStep_inv proto st t st₁ hs hInv)

theorem typeLoopInit_lookup (imports : List (String × String × String)) :
    ∀ k nm, alookup (imports.map fun i => (i.1, i.1)) k = some nm →
      nm = k ∧
      ∃ e, alookup (imports.map fun i => (i.1, EthTypeEntry.imported i.2.1 i.2.2 [])) nm
          = some e ∧ e.isImport = true := by
  induction imports with
  | nil =>
    intro k nm h
    cases h
  | cons i rest ih =>
    intro k nm h
    simp only [List.map_cons] at h ⊢
    by_cases hk : i.1 = k
    · have hnm : nm = k := by
        rw [show alookup ((i.1, i.1) :: rest.map fun i => (i.1, i.1)) k
            = some i.1 by simp [alookup, hk]] at h
        rw [← Option.some.inj h, hk]
      subst hnm
      exact ⟨rfl, .imported i.2.1 i.2.2 [], by simp [alookup, hk], rfl⟩
    · rw [show alookup ((i.1, i.1) :: rest.map fun i => (i.1, i.1)) k
          = alookup (rest.map fun i => (i.1, i.1)) k by simp [alookup, hk]] at h
      obtain ⟨hnm, e, hl, hi⟩ := ih k nm h
      subst hnm
      exact ⟨rfl, e, by simp [alookup, hk, hl], hi⟩

theorem typeLoopInit_namesOk (imports : List (String × String × String)) :
    TypeNamesOk (typeLoopInit imports) := by
  refine ⟨?_, List.nodup_nil, ?_⟩
  · intro k nm h
    obtain ⟨hnm, e, hl, hi⟩ := typeLoopInit_lookup imports k nm h
    exact ⟨e, hl, Or.inl hi⟩
  · intro nm h
    cases h

/-! ## Claim theorems -/

/-- **C2 (amended).** After the export-propagation phase, every value
reachable in the value-dependency closure of a value carrying a nonzero
export flag — through registered, non-import values — itself carries a
nonzero export flag; and any entry whose flag changed during the phase was
a zero-flag entry that received exactly 0x01.  (A reachable value that was
itself exported with `ONLY_VALS` keeps flag 0x02, so "all reachable values
carry bit 0x01" does not hold — see the counterexample.) -/
theorem C2_export_propagation (dep : List (String × List String))
    (valueOrd : List String) (tbl : VTbl)
    (hord : ∀ k r, alookup tbl k = some r → r.imp = none → k ∈ valueOrd)
    (v w : String) (rv : VEntry)
    (hv : alookup tbl v = some rv) (hvi : rv.imp = none) (hvz : rv.exportFlag ≠ 0)
    (hreach : NonImpReach tbl dep v w) :
    (∃ rw', alookup (propagateExports dep valueOrd tbl) w = some rw'
        ∧ rw'.exportFlag ≠ 0)
    ∧ (∀ a ra ra', alookup tbl a = some ra →
        alookup (propagateExports dep valueOrd tbl) a = some ra' →
        ra' = ra ∨ (ra.exportFlag = 0 ∧ ra' = ⟨ra.imp, 0x01⟩)) := by
  constructor
  · have hfinal_v : ∃ rv', alookup (propagateExports dep valueOrd tbl) v = some rv'
        ∧ rv'.exportFlag ≠ 0 := by
      obtain ⟨rv', h1, h2, _⟩ := expEvolves_nonzero
        (propagateExports_evolves dep valueOrd tbl) hv hvz
      exact ⟨rv', h1, h2⟩
    have hclosed : ∀ a ra, alookup tbl a = some ra → ra.imp = none →
        (∃ ra', alookup (propagateExports dep valueOrd tbl) a = some ra'
          ∧ ra'.exportFlag ≠ 0) →
        ∀ e ∈ depGet dep a, ∀ re, alookup tbl e = some re → re.imp = none →
        ∃ re', alookup (propagateExports dep valueOrd tbl) e = some re'
          ∧ re'.exportFlag ≠ 0 := by
      rintro a ra hra hrai ⟨ra', hra', hz'⟩ e he re hre hni
      rcases propagateExports_closed dep valueOrd tbl a ra' hra' hz'
        with ⟨r₀, hr₀, hz₀⟩ | hdeps
      · have heq : r₀ = ra := by rw [hra] at hr₀; exact (Option.some.inj hr₀).symm
        rw [heq] at hz₀
        exact propagateExports_covers dep valueOrd tbl a (hord a ra hra hrai)
          ra hra hz₀ e he re hre hni
      · exact hdeps e he re hre hni
    have aux : ∀ x y, NonImpReach tbl dep x y →
        (∃ rx, alookup tbl x = some rx ∧ rx.imp = none) →
        (∃ rx', alookup (propagateExports dep valueOrd tbl) x = some rx'
          ∧ rx'.exportFlag ≠ 0) →
        ∃ ry', alookup (propagateExports dep valueOrd tbl) y = some ry'
          ∧ ry'.exportFlag ≠ 0 := by
      intro x y hr
      induction hr with
      | step x d hd hde =>
        rintro ⟨rx, hrx, hrxi⟩ hfx
        obtain ⟨rd, hrd, hrdi⟩ := hde
        exact hclosed x rx hrx hrxi hfx d hd rd hrd hrdi
      | trans x d y hd hde _ ih =>
        rintro ⟨rx, hrx, hrxi⟩ hfx
        obtain ⟨rd, hrd, hrdi⟩ := hde
        have hfd := hclosed x rx hrx hrxi hfx d hd rd hrd hrdi
        exact ih ⟨rd, hrd, hrdi⟩ hfd
    exact aux v w hreach ⟨rv, hv, hvi⟩ hfinal_v
  · intro a ra ra' hra hra'
    rcases propagateExports_evolves dep valueOrd tbl a with he | ⟨r₀, hr₀, hz₀, hr₀'⟩
    · left
      rw [he, hra] at hra'
      exact (Option.some.inj hra').symm
    · have heq : r₀ = ra := by rw [hra] at hr₀; exact (Option.some.inj hr₀).symm
      rw [heq] at hz₀ hr₀'
      right
      refine ⟨hz₀, ?_⟩
      rw [hr₀'] at hra'
      exact (Option.some.inj hra').symm

def c2Tbl : VTbl := [("v", ⟨none, 1⟩), ("w", ⟨none, 2⟩)]

def c2Dep : List (String × List String) :=
  buildValueDep c2Tbl [("v", some "w"), ("w", none)]

theorem c2_run_eval : propagateExports c2Dep ["v", "w"] c2Tbl = c2Tbl := by
  have hw : walkExport c2Dep c2Tbl ["w"] = c2Tbl := by
    rw [walkExport_cons_exported c2Dep c2Tbl "w" [] ⟨none, 2⟩ rfl rfl (by decide)]
    exact walkExport_nil c2Dep c2Tbl
  have hv : propStep c2Dep c2Tbl "v" = c2Tbl := by
    unfold propStep
    rw [show alookup c2Tbl "v" = some ⟨none, 1⟩ from rfl]
    dsimp only
    rw [if_pos (by decide)]
    rw [show (depGet c2Dep "v").reverse = ["w"] from rfl]
    exact hw
  have hw2 : propStep c2Dep c2Tbl "w" = c2Tbl := by
    unfold propStep
    rw [show alookup c2Tbl "w" = some ⟨none, 2⟩ from rfl]
    dsimp only
    rw [if_pos (by decide)]
    rw [show (depGet c2Dep "w").reverse = ([] : List String) from rfl]
    exact walkExport_nil c2Dep c2Tbl
  show List.foldl (propStep c2Dep) c2Tbl ["v", "w"] = c2Tbl
  rw [List.foldl_cons, hv, List.foldl_cons, hw2, List.foldl_nil]

/-- **C2 counterexample.** `w` is exported `ONLY_VALS` (flag 0x02) and is
the value-dependency of the exported value `v` (flag 0x01).  After the
propagation phase `w` still carries flag 0x02, whose bit 0x01 is clear —
the claim that every reachable value carries export bit 0x01 fails. -/
theorem C2_export_bit_counterexample :
    c2Dep = [("v", ["w"])]
    ∧ alookup c2Tbl "v" = some ⟨none, 1⟩
    ∧ NonImpReach c2Tbl c2Dep "v" "w"
    ∧ alookup (propagateExports c2Dep ["v", "w"] c2Tbl) "w" = some ⟨none, 2⟩
    ∧ (2 : Nat) &&& 0x01 = 0 := by
  refine ⟨by decide, by decide, ?_, ?_, by decide⟩
  · exact NonImpReach.step "v" "w" (by decide) ⟨⟨none, 2⟩, by decide, rfl⟩
  · rw [c2_run_eval]; decide

theorem C2_export_propagation_witness :
    alookup ([("v", ⟨none, 1⟩), ("w", ⟨none, 0⟩)] : VTbl) "v" = some ⟨none, 1⟩
    ∧ NonImpReach [("v", ⟨none, 1⟩), ("w", ⟨none, 0⟩)] [("v", ["w"])] "v" "w"
    ∧ ∃ rw', alookup (propagateExports [("v", ["w"])] ["v", "w"]
        [("v", ⟨none, 1⟩), ("w", ⟨none, 0⟩)]) "w" = some rw'
        ∧ rw'.exportFlag ≠ 0 :=
  ⟨by decide,
   NonImpReach.step "v" "w" (by decide) ⟨⟨none, 0⟩, by decide, rfl⟩,
   (C2_export_propagation [("v", ["w"])] ["v", "w"]
     [("v", ⟨none, 1⟩), ("w", ⟨none, 0⟩)]
     (by
       intro k r hk _
       by_cases h1 : "v" = k
       · rw [← h1]; decide
       · unfold alookup at hk
         rw [if_neg h1] at hk
         by_cases h2 : "w" = k
         · rw [← h2]; decide
         · unfold alookup at hk
           rw [if_neg h2] at hk
           unfold alookup at hk
           cases hk)
     "v" "w" ⟨none, 1⟩ (by decide) rfl (by decide)
     (NonImpReach.step "v" "w" (by decide) ⟨⟨none, 0⟩, by decide, rfl⟩)).1⟩

/-- **C8.** For every registered field whose referenced type key is absent
from the type table, the compiler prints a warning, registers the key as an
imported type with import module `xxx`, protocol `xxx` and default
attributes `FT_NONE / BASE_NONE / NULL / 0`, resolves the field's ethtype to
that key, and continues; the legacy per-field wrapper emitted for any field
of that ethtype calls `dissect_xxx_<TypeName>`. -/
theorem C8_dummy_import_field (rename : List (String × String)) (proto : String)
    (fields : List FieldIn) (st0 : HfState) (f : FieldIn)
    (hmem : f ∈ fields) (habs : alookup st0.typeTbl f.typ = none) :
    alookup (hfLoop rename proto fields st0).typeTbl f.typ
        = some (dummyTypeEntry f.typ)
    ∧ alookup (hfLoop rename proto fields st0).ethType f.typ
        = some (.imported "xxx" "xxx" [])
    ∧ ("Dummy imported:  " ++ f.typ) ∈ (hfLoop rename proto fields st0).warns
    ∧ (∃ nmS, (f.key, hfBaseName rename f, nmS, f.typ ++ f.modified)
        ∈ (hfLoop rename proto fields st0).fieldResolved)
    ∧ (∀ fe hfE, alookup (hfLoop rename proto fields st0).ethHf fe = some hfE →
        hfE.ethtype = f.typ →
        out_field_oper (hfLoop rename proto fields st0) fe
          = .ok ("static int dissect_" ++ fe
              ++ "(tvbuff_t *tvb, int offset, packet_info *pinfo, proto_tree *tree) \x7b\n"
              ++ eth_fn_call ("dissect_" ++ "xxx" ++ "_" ++ f.typ) (some "return") 2
                  [["tvb", "offset", "pinfo", "tree", hfE.fullname]]
              ++ "\x7d\n")) := by
  have hd := hfLoop_dummy_import rename proto fields st0 f hmem habs
  refine ⟨hd.1.1, hd.1.2, hd.2.1, hd.2.2, ?_⟩
  intro fe hfE hfe htyp
  unfold out_field_oper
  rw [hfe]
  dsimp only
  rw [htyp, hd.1.2]
  rfl

theorem C8_dummy_import_field_witness :
    (⟨"Msg/ext", "External", "", false, ""⟩ : FieldIn)
        ∈ [(⟨"Msg/ext", "External", "", false, ""⟩ : FieldIn)]
    ∧ alookup (([] : List (String × TypeEntry))) "External" = none
    ∧ alookup (hfLoop [] "P" [⟨"Msg/ext", "External", "", false, ""⟩]
          ⟨[], [], [], [], [], [], []⟩).typeTbl "External"
        = some (dummyTypeEntry "External") :=
  ⟨by decide, by decide,
   (C8_dummy_import_field [] "P" [⟨"Msg/ext", "External", "", false, ""⟩]
     ⟨[], [], [], [], [], [], []⟩ ⟨"Msg/ext", "External", "", false, ""⟩
     (by decide) (by decide)).1⟩

/-- **C3 counterexample.** The wire-name maps are *not* collision-free:
in `c3FieldRun`, the distinct field keys `B/x1` (type `T2`) and `C/x`
(type `T3`) both end up with wire name `x1` — the suffixed name issued to
`C/x` is never re-checked against the registry; and in `c3TypeRun`, the
distinct type keys `Foo` (an INTEGER) and `Bar` (a BOOLEAN renamed to
`Foo`) share the wire name `Foo` with no suffix at all. -/
theorem C3_name_collision_counterexample :
    ¬ hfCollisionFree c3FieldRun
    ∧ ("B/x1", "x1", "x1", "T2") ∈ c3FieldRun.fieldResolved
    ∧ ("C/x", "x", "x1", "T3") ∈ c3FieldRun.fieldResolved
    ∧ c3TypeRun = .ok c3TypeSt
    ∧ ¬ typeCollisionFree c3TypeIns c3TypeSt := by
  refine ⟨by decide, by decide, by decide, rfl, by decide⟩

/-- **C5 counterexample.** For the bare input `Age ::= INTEGER (0..120)` no
field is registered, so the header-field file body is empty: no
`hf_P_Age` declaration is emitted at all (the `-hf.c` file is not even
created, `eth_output_hf` returning early on an empty `eth_hf_ord`). -/
theorem C5_no_hf_declaration_counterexample :
    ethOutputHfDecls c5HfRun = []
    ∧ "static int hf_P_Age = -1;" ∉ ethOutputHfDecls c5HfRun := by
  exact ⟨rfl, by decide⟩

set_option maxRecDepth 10000 in
/-- **C5 (amended).** For `Age ::= INTEGER (0..120)` compiled for PER: the
type registers with wire name `Age`; exactly one dissector item is emitted,
whose rendered function is `dissect_P_Age` calling
`dissect_per_constrained_integer` (`_new` under the new API) with bounds
`(0U, 120U)` and extensible flag `FALSE`; no value-string table exists; the
registered type attributes are `FT_UINT32 / BASE_DEC / NULL / 0` (which any
referencing field would inherit); and no header field is declared, the
input containing no field. -/
theorem C5_age_integer_per :
    regTname "Age" "INTEGER_0_120" = "Age"
    ∧ typeLoop "P" c5TypeIns (typeLoopInit []) = .ok c5TypeSt
    ∧ regTypeAttrInteger false c5Constr = ⟨"FT_UINT32", "BASE_DEC", "NULL", "0"⟩
    ∧ eth_has_vals_integer false = false
    ∧ ethOutputItems true ["Age"] [] id c5Info [] = [.defn "Age"]
    ∧ ethOutputItems false ["Age"] [] id c5Info [] = [.defn "Age"]
    ∧ eth_type_fn_integer ⟨"P", "per", false⟩ "Age" 0 false false "" "" "" c5Constr
        = .ok ("\n\nstatic int\ndissect_P_Age(tvbuff_t *tvb, int offset, packet_info *pinfo _U_, proto_tree *tree, int hf_index) \x7b\n  offset = dissect_per_constrained_integer(tvb, offset, pinfo, tree, hf_index,\n                                           0U, 120U, NULL, NULL, FALSE);\n\n  return offset;\n\x7d\n")
    ∧ eth_type_fn_integer ⟨"P", "per", true⟩ "Age" 0 false false "" "" "" c5Constr
        = .ok ("\n\nstatic int\ndissect_P_Age(tvbuff_t *tvb, int offset, packet_info *pinfo _U_, proto_tree *tree, int hf_index, proto_item **item, void *private_data) \x7b\n  offset = dissect_per_constrained_integer_new(tvb, offset, pinfo, tree,\n                                               hf_index, item, private_data,\n                                               0U, 120U, FALSE,\n                                               NULL);\n\n  return offset;\n\x7d\n")
    ∧ ethOutputHfDecls c5HfRun = [] := by
  refine ⟨by decide, rfl, by decide, rfl, by decide, by decide, rfl, rfl, rfl⟩

/-! ### C4, C6, C7, C9, C10 -/

/-- **C6.** Parsing `SET { }` (production `SetType : SET LBRACE RBRACE`)
crashes on the attribute access `t[3].has_key('ext_list')` — a dict method
applied to the `RBRACE` token's string value — before any check for an
empty element list, so no `SetType` with an empty element table is ever
constructed. -/
theorem C6_empty_set_parse_crashes :
    p_SetType_1 rbraceTokVal
      = .error "AttributeError: 'str' object has no attribute 'has_key'" := rfl

/-- **C7.** For every conformance table configured with `chk_dup`, adding a
row whose key already exists produces a warning whose message cites the file
and line of the prior entry, and the call returns normally (no fatal error):
`add_item` yields `.ok` with the single duplicate warning. -/
theorem C7_dup_conformance_row_warns (tname : String) (cfg : TblCfg)
    (hcfg : alookup tblcfg tname = some cfg) (hdup : cfg.chk_dup = true)
    (tbl : List (String × CnfRow)) (key fn : String) (lineno : Nat)
    (payload : List (String × String)) (prior : CnfRow)
    (hprior : alookup tbl key = some prior) :
    add_item cfg.chk_dup tname tbl key fn lineno payload
      = .ok ⟨tbl, [⟨dupMsg tname key prior.fn prior.lineno, fn, lineno⟩]⟩ := by
  have hhas : ahas tbl key = true := by simp [ahas, hprior]
  simp [add_item, hdup, hhas, hprior]

theorem C7_dup_conformance_row_warns_witness :
    alookup tblcfg "EXPORTS" = some ⟨"flag", .num 0, true, true⟩
    ∧ (⟨"flag", PyDflt.num 0, true, true⟩ : TblCfg).chk_dup = true
    ∧ alookup [("Foo", (⟨"a.cnf", 3, false, []⟩ : CnfRow))] "Foo"
        = some ⟨"a.cnf", 3, false, []⟩
    ∧ add_item true "EXPORTS" [("Foo", ⟨"a.cnf", 3, false, []⟩)] "Foo" "b.cnf" 7 []
        = .ok ⟨[("Foo", ⟨"a.cnf", 3, false, []⟩)],
               [⟨dupMsg "EXPORTS" "Foo" "a.cnf" 3, "b.cnf", 7⟩]⟩ :=
  ⟨by decide, by decide, by decide,
   C7_dup_conformance_row_warns "EXPORTS" ⟨"flag", .num 0, true, true⟩ (by decide)
     (by decide) [("Foo", ⟨"a.cnf", 3, false, []⟩)] "Foo" "b.cnf" 7 []
     ⟨"a.cnf", 3, false, []⟩ (by decide)⟩

/-- **C9.** When a duplicate row is added to a `chk_dup` conformance table,
the table state is unchanged: the previously stored row (payload, source
location and `used` bit) is retained under its key, and the duplicate row's
payload is discarded entirely. -/
theorem C9_dup_conformance_row_discarded (tname : String) (cfg : TblCfg)
    (hcfg : alookup tblcfg tname = some cfg) (hdup : cfg.chk_dup = true)
    (tbl : List (String × CnfRow)) (key fn : String) (lineno : Nat)
    (payload : List (String × String)) (prior : CnfRow)
    (hprior : alookup tbl key = some prior) :
    ∃ r, add_item cfg.chk_dup tname tbl key fn lineno payload = .ok r
      ∧ r.table = tbl ∧ alookup r.table key = some prior := by
  refine ⟨⟨tbl, [⟨dupMsg tname key prior.fn prior.lineno, fn, lineno⟩]⟩, ?_, rfl, hprior⟩
  exact C7_dup_conformance_row_warns tname cfg hcfg hdup tbl key fn lineno payload
    prior hprior

theorem C9_dup_conformance_row_discarded_witness :
    alookup tblcfg "TYPE_RENAME" = some ⟨"eth_name", .none, true, true⟩
    ∧ alookup [("M", (⟨"x.cnf", 11, true, [("eth_name", "N")]⟩ : CnfRow))] "M"
        = some ⟨"x.cnf", 11, true, [("eth_name", "N")]⟩
    ∧ ∃ r, add_item true "TYPE_RENAME"
            [("M", ⟨"x.cnf", 11, true, [("eth_name", "N")]⟩)] "M" "y.cnf" 4
            [("eth_name", "Q")] = .ok r
        ∧ r.table = [("M", ⟨"x.cnf", 11, true, [("eth_name", "N")]⟩)]
        ∧ alookup r.table "M" = some ⟨"x.cnf", 11, true, [("eth_name", "N")]⟩ :=
  ⟨by decide, by decide,
   C9_dup_conformance_row_discarded "TYPE_RENAME" ⟨"eth_name", .none, true, true⟩
     (by decide) (by decide) [("M", ⟨"x.cnf", 11, true, [("eth_name", "N")]⟩)]
     "M" "y.cnf" 4 [("eth_name", "Q")] ⟨"x.cnf", 11, true, [("eth_name", "N")]⟩
     (by decide)⟩

/-- **C4.** For `Color ::= ENUMERATED { red, green, blue, ... }` compiled for
PER: the value-string table does list red=0, green=1, blue=2 (and the local
`maxv` of `eth_type_vals` is 2), but the dissector-function emitter
`EnumeratedType.eth_type_fn` never reaches the constrained-integer call —
on the PER path it reads the name `maxv`, which is local to
`eth_type_vals`, and raises `NameError` (for either API generation), so the
claimed call with extensible flag TRUE and max = 2 is never emitted. -/
theorem C4_color_per_enum :
    (enumTypeVals [.ident "red", .ident "green", .ident "blue"] (some [])).1
      = [(0, "red"), (1, "green"), (2, "blue")]
    ∧ (enumTypeVals [.ident "red", .ident "green", .ident "blue"] (some [])).2 = 2
    ∧ ∀ (newApi : Bool),
        enumTypeFn ⟨"P", "per", newApi⟩ "Color" 0 false false "" "" "" (some [])
          = .error "NameError: global name 'maxv' is not defined" := by
  refine ⟨by decide, by decide, ?_⟩
  intro newApi
  cases newApi <;> rfl

/-- **C10.** In the value-string table of an ENUMERATED type, every root item
written without an explicit number is assigned the least value that is ≥ the
previously auto-assigned value (starting from 0), is not claimed by any
explicitly numbered root item, and is not already auto-assigned; explicitly
numbered items keep their declared values.  The root segment of the emitted
table is `rootProduced`, and it satisfies the characterisation
`RootAssignOk`; the claim's two examples are also checked. -/
theorem C10_enum_root_auto_numbering :
    (∀ (root : List EnumItem) (ext : Option (List EnumItem)),
        (enumTypeVals root ext).1.take (rootProduced root 0 (markNamed root ∅)).length
          = rootProduced root 0 (markNamed root ∅)
      ∧ RootAssignOk (markNamed root ∅) root 0 ∅ (rootProduced root 0 (markNamed root ∅)))
    ∧ (enumTypeVals [.ident "a", .named "b" 1, .ident "c"] none).1
        = [(0, "a"), (1, "b"), (2, "c")]
    ∧ (enumTypeVals [.named "a" 0, .ident "b", .ident "c"] none).1
        = [(0, "a"), (1, "b"), (2, "c")] := by
  refine ⟨?_, by decide, by decide⟩
  intro root ext
  constructor
  · have hroot : (enumLoopRoot root ⟨[], 0, markNamed root ∅, 0⟩).vals
        = rootProduced root 0 (markNamed root ∅) := by
      simpa using enumLoopRoot_vals root ⟨[], 0, markNamed root ∅, 0⟩
    cases ext with
    | none =>
      show (enumLoopRoot root ⟨[], 0, markNamed root ∅, 0⟩).vals.take _ = _
      rw [hroot, List.take_length]
    | some es =>
      have hpre := enumLoopExt_vals_prefix es
        { enumLoopRoot root ⟨[], 0, markNamed root ∅, 0⟩ with
          used := markNamed es (enumLoopRoot root ⟨[], 0, markNamed root ∅, 0⟩).used }
      obtain ⟨tl, htl⟩ := hpre
      show (enumLoopExt es _).vals.take _ = _
      rw [htl]
      simp only [hroot]
      exact List.take_left _ _
  · have hused : markNamed root ∅ = markNamed root ∅ ∪ (∅ : Finset ℤ) := by
      simp
    exact rootProduced_assignOk (markNamed root ∅) root 0 ∅ (markNamed root ∅) hused

/-- C1 (counterexample): in the two-type mutual recursion `A ⇄ B`, the DFS
records the single cycle `[A, B, A]`; `B` is a cycle member, `A` references
`B`, and `A`'s full definition is in the output stream, yet the stream
contains no forward declaration for `B` — only the cycle's entry point `A`
receives one.  This refutes the claim's second half: not every cycle member
gets a prototype written before the definitions of the types mentioning
it. -/
theorem C1_forward_decl_counterexample :
    (∃ c ∈ c1St.cycles, "B" ∈ c ∧ "A" ∈ c)
    ∧ "B" ∈ depsGet c1Deps "A"
    ∧ OutItem.defn "A" ∈ c1Items
    ∧ OutItem.fwd "A" ∈ c1Items
    ∧ OutItem.fwd "B" ∉ c1Items := by
  decide

/-- C1: dependency ordering of the emitted `packet-*-fn.c` stream, for every
registry and step budget.  (1) Every key the DFS popped that belongs to no
recorded cycle has each of its dependencies either imported or emitted
strictly earlier in `eth_type_ord1` than the key itself; (2) the dissector
definitions appear exactly for the non-import entries of `eth_type_ord1`
whose `no_emit`/`user_def` low bits are clear, in `eth_type_ord1` order; and
(3) the stream splits into a prefix containing a forward declaration for
every recorded cycle's entry-point ethname and no definitions, followed by
a suffix containing no forward declarations — so every emitted prototype
precedes every definition.  Only cycle entry points receive prototypes (see
the counterexample), which is what the claim's second half should say. -/
theorem C1_dependency_ordering (g : DfsIn) (fuel : Nat) (new : Bool)
    (info : String → FnEmitInfo) (hfFields : List (String × String)) :
    (∀ k ∈ (dfsOuter g fuel).popped, (∀ c ∈ (dfsOuter g fuel).cycles, k ∉ c) →
      ∀ d ∈ depsGet g.deps k, g.imp d = true ∨
        ∃ i j, i < j
          ∧ (dfsOuter g fuel).ord1.get? i = some (g.ethname d)
          ∧ (dfsOuter g fuel).ord1.get? j = some (g.ethname k))
    ∧ defnNames (ethOutputItems new (dfsOuter g fuel).ord1 (dfsOuter g fuel).cycles
        g.ethname info hfFields)
        = (dfsOuter g fuel).ord1.filter (emitsDefn info)
    ∧ ∃ pre post,
        ethOutputItems new (dfsOuter g fuel).ord1 (dfsOuter g fuel).cycles
          g.ethname info hfFields = pre ++ post
        ∧ (∀ c ∈ (dfsOuter g fuel).cycles, OutItem.fwd (g.ethname (c.headD "")) ∈ pre)
        ∧ (∀ it ∈ pre, ∀ nm, it ≠ OutItem.defn nm)
        ∧ (∀ it ∈ post, ∀ nm, it ≠ OutItem.fwd nm) := by
  refine ⟨?_, defnNames_ethOutputItems _ _ _ _ _ _, ?_⟩
  · intro k hk hnc d hd
    rcases (dfsOuter_inv g fuel).popped_ok k hk d hd with himp | hpos | ⟨c, hc, hkc⟩
    · exact Or.inl himp
    · exact Or.inr hpos
    · exact absurd hkc (hnc c hc)
  · refine ⟨cycBlockItems new (dfsOuter g fuel).cycles g.ethname hfFields
        ++ impFldItems new info hfFields,
      (dfsOuter g fuel).ord1.flatMap
        (mainItemsFor new (cycHeads (dfsOuter g fuel).cycles g.ethname) info hfFields),
      ?_, ?_, ?_, ?_⟩
    · unfold ethOutputItems
      rfl
    · intro c hc
      exact List.mem_append_left _
        (fwd_mem_cycBlock new (dfsOuter g fuel).cycles g.ethname hfFields c hc)
    · intro it hit nm
      rcases List.mem_append.mp hit with h1 | h1
      · rcases cycBlock_shape new (dfsOuter g fuel).cycles g.ethname hfFields it h1
          with ⟨cs, he⟩ | ⟨n, he⟩ | ⟨n, he⟩ <;> (rw [he]; intro hcon; cases hcon)
      · obtain ⟨n, he⟩ := impFld_shape new info hfFields it h1
        rw [he]
        intro hcon
        cases hcon
    · intro it hit nm
      obtain ⟨t, _, hin⟩ := List.mem_flatMap.mp hit
      rcases mainItemsFor_shape new (cycHeads (dfsOuter g fuel).cycles g.ethname)
          info hfFields t it hin
        with ⟨n, he⟩ | ⟨n, he⟩ | ⟨n, he⟩ | ⟨n, he⟩ | ⟨n, he⟩ <;>
        (rw [he]; intro hcon; cases hcon)

/-- C3 (amended): what the suffix rule actually guarantees.  For the
header-field registry, on any run in which every field's `modified` combo
part is empty and the final `eth_hf_ord` is duplicate-free (i.e. no
suffixed newcomer silently overwrote an existing entry — see the
counterexample for a run where it does), the resolution is collision-free:
the `eth_hf` keys are exactly the `eth_hf_ord` entries, every resolved
field's name holds an entry with the field's own underlying combo, and two
fields resolved to the same wire name always share one underlying combo.
For the type registry, every successful `eth_prepare` type loop yields a
duplicate-free `eth_type_ord` whose entries are `eth_type` keys, and every
registered key's wire name holds an entry that is an import entry or lists
the key among its referencing `ref`s — distinct keys sharing a `tname` are
merged into one entry rather than suffixed. -/
theorem C3_name_uniqueness
    (rename : List (String × String)) (protoF : String)
    (fs : List FieldIn) (st0 : HfState)
    (hmod : ∀ f ∈ fs, f.modified = "")
    (hok0 : HfNamesOk st0)
    (hnd : (hfLoop rename protoF fs st0).ethHfOrd.Nodup)
    (protoT : String) (ts : List TypeRegIn)
    (imports : List (String × String × String)) (stT : TypeLoopState)
    (hT : typeLoop protoT ts (typeLoopInit imports) = .ok stT) :
    hfCollisionFree (hfLoop rename protoF fs st0)
    ∧ HfNamesOk (hfLoop rename protoF fs st0)
    ∧ TypeNamesOk stT := by
  have hok := hfLoop_namesOk rename protoF fs st0 hmod hok0 hnd
  exact ⟨collisionFree_of_namesOk _ hok, hok,
    typeLoop_inv protoT ts _ stT hT (typeLoopInit_namesOk imports)⟩

/-- C3 witness: the amended theorem applied to a concrete collision-free
run (fields `M/a`, `M/b` of type `T1`; type registry of the
counterexample's three types, whose loop succeeds). -/
theorem C3_name_uniqueness_witness :
    ((∀ f ∈ c3wFields, f.modified = "")
      ∧ (hfLoop [] "P" c3wFields c3wSt0).ethHfOrd.Nodup
      ∧ typeLoop "P" c3TypeIns (typeLoopInit []) = .ok c3TypeSt)
    ∧ (hfCollisionFree (hfLoop [] "P" c3wFields c3wSt0)
      ∧ HfNamesOk (hfLoop [] "P" c3wFields c3wSt0)
      ∧ TypeNamesOk c3TypeSt) := by
  have hok0 : HfNamesOk c3wSt0 := by
    refine ⟨fun nm => ?_, fun p hp => ?_, fun nm dmap hdm => ?_⟩
    · simp [c3wSt0, ahas, alookup]
    · simp [c3wSt0] at hp
    · simp [c3wSt0, alookup] at hdm
  exact ⟨⟨by decide, by decide, rfl⟩,
    C3_name_uniqueness [] "P" c3wFields c3wSt0 (by decide) hok0 (by decide)
      "P" c3TypeIns [] c3TypeSt rfl⟩

end Asn2Eth
